/-
Verification of the hybrid retrieval and rank-fusion engine of audio2text-RAG.

Shallow embedding of:
  * src/services/internal/fuse.py        (_fuse_rrf, _fuse_dbsf, fuse_results)
  * src/services/internal/inverted_index.py (build_inverted_index)
  * src/repo/local/retrieve.py           (index_retrieve)
  * src/repo/postgres/retrieve.py        (hybrid_search)
  * src/services/public/_retrieve.py     (retrieve_documents, error propagation)
  * src/core/config.py                   (RRF_K, FUSION_METHOD)

Modelling conventions:
  * Python dicts are insertion-ordered; they are modelled as association
    lists in which updating an existing key keeps its position and a new
    key is appended at the end.
  * Python's `list.sort(key=..., reverse=True)` is a stable descending
    sort; it is modelled by `List.insertionSort` with the weak descending
    relation on keys, which is stable in exactly the same sense (an
    element is inserted before an existing element only when its key is
    strictly greater), and a stable sort of a list by a key is unique.
  * Python floats are modelled as exact numbers (`ℚ` where the code is
    rational, `ℝ` where `math`-style irrational functions appear); see
    the individual definitions for the one place where IEEE NaN matters.
  * Exceptions are modelled with `Except`; `raise` maps to `.error`.
-/
import Mathlib

namespace RAG

/-- Payload of a stored document (text plus metadata record), as carried by
`schemas.RetrievedDocument.payload`. The metadata record is opaque here. -/
structure DocumentPayload where
  text : String
  metadata : String
deriving DecidableEq

/-- Default payload used to totalize lookups that the source performs with
plain `dict[...]` access; every theorem that touches a payload proves the
corresponding key present, so this default is never observed. -/
def defaultPayload : DocumentPayload := ⟨"", ""⟩

/-- Model of `schemas.RetrievedDocument`: `id` (`Union[str, int]` in the source, kept
as a type parameter `ι`), a similarity `score` (`float`, kept as a type
parameter `α` so that fusion can be stated over `ℚ` or `ℝ`), and a payload. -/
structure RetrievedDocument (ι : Type) (α : Type) where
  id : ι
  score : α
  payload : DocumentPayload
deriving DecidableEq

/-- Association-list lookup: Python `m[i]` / `m.get(i)` on an
insertion-ordered dict modelled as a list of key-value pairs. -/
def alookup [DecidableEq ι] : List (ι × β) → ι → Option β
  | [], _ => none
  | (j, b) :: m, i => if j = i then some b else alookup m i

/-- Python `defaultdict`-style accumulation `m[i] += v`: an existing key
keeps its position and gets `v` added to its value; a missing key is
appended at the end with value `v` (the default `0` plus `v`). -/
def bump [DecidableEq ι] [Add α] : List (ι × α) → ι → α → List (ι × α)
  | [], i, v => [(i, v)]
  | (j, w) :: m, i, v => if j = i then (j, w + v) :: m else (j, w) :: bump m i v

/-- Python `if doc.id not in all_docs: all_docs[doc.id] = doc`, folded over a
result list: records the first document seen for each id. -/
def addDocs [DecidableEq ι] (st : List (ι × RetrievedDocument ι α))
    (results : List (RetrievedDocument ι α)) : List (ι × RetrievedDocument ι α) :=
  results.foldl
    (fun acc d => if (alookup acc d.id).isSome then acc else acc ++ [(d.id, d)]) st

/-- Payload of the recorded first document with the given id (`all_docs[doc_id]`
in the source; the key is always present when this is used). -/
def payloadOf [DecidableEq ι] (docs : List (ι × RetrievedDocument ι α)) (i : ι) :
    DocumentPayload :=
  ((alookup docs i).map (fun d => d.payload)).getD defaultPayload

/-- Python's stable sort `fused_results.sort(key=lambda x: x.score, reverse=True)`,
as `insertionSort` with the weak descending relation on scores: an element
moves before an existing one only when its score is strictly greater, so
elements with equal scores keep their original relative order, exactly as
CPython's stable sort with `reverse=True` does. -/
def sortByScoreDesc [LinearOrder α] (l : List (RetrievedDocument ι α)) :
    List (RetrievedDocument ι α) :=
  l.insertionSort (fun x y => y.score ≤ x.score)

/-- Stable descending sort of `(key, score)` pairs:
`sorted(scores.items(), key=lambda x: x[1], reverse=True)` in the source. -/
def sortPairsDesc [LinearOrder α] (l : List (ι × α)) : List (ι × α) :=
  l.insertionSort (fun x y => y.2 ≤ x.2)

/-- Model of `config.RRF_K`: `int(os.getenv("RRF_K", 2))`, validated positive. -/
def RRF_K : ℕ := 2

/-- Model of `config.FUSION_METHOD`: `os.getenv("FUSION_METHOD", "dbsf")`. -/
def FUSION_METHOD : String := "dbsf"

/-- One accumulation pass of `_fuse_rrf`:
`for rank, doc in enumerate(results): fused_scores[doc.id] += 1 / (k + rank)`,
with the separate `all_docs` bookkeeping of the same loop split into
`addDocs` (the two dicts do not interact inside the loop). -/
def rrfPass [DecidableEq ι] [LinearOrderedField α] (k : ℕ)
    (st : List (ι × α)) (results : List (RetrievedDocument ι α)) : List (ι × α) :=
  results.enum.foldl (fun acc rd => bump acc rd.2.id (1 / (k + rd.1 : α))) st

/-- Model of `_fuse_rrf(results1, results2, k)`: reciprocal-rank-fusion scores
accumulated over both lists in order, hydrated with the first-seen document
payloads, then stable-sorted by fused score descending. -/
def fuse_rrf [DecidableEq ι] [LinearOrderedField α]
    (k : ℕ) (results1 results2 : List (RetrievedDocument ι α)) :
    List (RetrievedDocument ι α) :=
  let fused_scores := rrfPass k (rrfPass k [] results1) results2
  let all_docs := addDocs (addDocs [] results1) results2
  if fused_scores = [] then []
  else sortByScoreDesc
    (fused_scores.map (fun p => ⟨p.1, p.2, payloadOf all_docs p.1⟩))

/-- Arithmetic mean of a list of scores (`np.mean(scores)`). -/
noncomputable def listMean (l : List ℝ) : ℝ := l.sum / l.length

/-- Sample standard deviation `np.std(scores, ddof=1)`:
square root of the sum of squared deviations divided by `n - 1`.
Only used on lists of length at least 2; for a single-element list NumPy
produces `0/0 = NaN`, which this embedding marks explicitly in `dbsfPass`
instead of relying on Lean's `0/0 = 0` convention. -/
noncomputable def sampleStd (l : List ℝ) : ℝ :=
  Real.sqrt ((l.map (fun x => (x - listMean l) ^ 2)).sum / ((l.length : ℝ) - 1))

/-- One `_normalize_and_fuse(results)` pass of `_fuse_dbsf`.
`none` records the IEEE-NaN poisoning of a single-element list:
`np.std(scores, ddof=1)` is then `0/0 = NaN`, the `std == 0` comparison is
false, and every normalized score of that pass becomes NaN — the run no
longer computes real numbers, which the embedding marks as undefined.
For the empty list the source returns the state unchanged, and for length
at least 2 the standard deviation is an ordinary real number. -/
noncomputable def dbsfPass [DecidableEq ι] (st : List (ι × ℝ))
    (results : List (RetrievedDocument ι ℝ)) : Option (List (ι × ℝ)) :=
  if results.length = 0 then some st
  else if results.length = 1 then none
  else
    let scores := results.map (fun d => d.score)
    let mean := listMean scores
    let std := sampleStd scores
    if std = 0 then
      some (results.foldl (fun acc d => bump acc d.id (1 / 2)) st)
    else
      let ub := mean + 3 * std
      let lb := mean - 3 * std
      let score_range := ub - lb
      some (results.foldl
        (fun acc d => bump acc d.id ((d.score - lb) / score_range)) st)

/-- Model of `_fuse_dbsf(results1, results2)`: distribution-based score fusion —
normalize and accumulate both lists in order, hydrate with first-seen
payloads, stable-sort by fused score descending. `none` when a pass hits
the single-element NaN case described at `dbsfPass`. -/
noncomputable def fuse_dbsf [DecidableEq ι]
    (results1 results2 : List (RetrievedDocument ι ℝ)) :
    Option (List (RetrievedDocument ι ℝ)) :=
  match dbsfPass [] results1 with
  | none => none
  | some st1 =>
    match dbsfPass st1 results2 with
    | none => none
    | some fused_scores =>
      let all_docs := addDocs (addDocs [] results1) results2
      some (if fused_scores = [] then []
        else sortByScoreDesc
          (fused_scores.map (fun p => ⟨p.1, p.2, payloadOf all_docs p.1⟩)))

/-- The error raised by `fuse_results` for an unknown fusion method
(`raise ValueError(f"Unknown fusion method: ...")`; the spec's taxonomy
names it `UnsupportedFusionMethodError`). -/
inductive FusionError
  | unsupportedFusionMethod : String → FusionError
deriving DecidableEq

/-- Model of `fuse_results(results1, results2, method)`: dispatch on the fusion
method string; an unrecognized method raises. The payload of the `ok`
branch is an `Option` because the `dbsf` branch can hit the NaN case. -/
noncomputable def fuse_results [DecidableEq ι] (method : String)
    (results1 results2 : List (RetrievedDocument ι ℝ)) :
    Except FusionError (Option (List (RetrievedDocument ι ℝ))) :=
  if method = "rrf" then .ok (some (fuse_rrf RRF_K results1 results2))
  else if method = "dbsf" then .ok (fuse_dbsf results1 results2)
  else .error (.unsupportedFusionMethod method)

/-- Python `int(q)` on a float: truncation toward zero. -/
def pythonInt (q : ℚ) : ℤ := if q < 0 then ⌈q⌉ else ⌊q⌋

/-- The overfetch amount of `hybrid_search` in `src/repo/postgres/retrieve.py`:
`overfetch_amount = max(top_k, int(top_k * overfetch_mul))`. -/
def overfetch_amount (top_k : ℕ) (overfetch_mul : ℚ) : ℕ :=
  max top_k (pythonInt ((top_k : ℚ) * overfetch_mul)).toNat

/-- Modelled from the spec: the overfetch formula the spec states for
hybrid retrieval, `overfetch = max(top_k, round(top_k * overfetch_multiplier))`,
with rounding instead of the source's truncation; kept separate so the two
can be compared. -/
def spec_overfetch (top_k : ℕ) (overfetch_mul : ℚ) : ℕ :=
  max top_k (round ((top_k : ℚ) * overfetch_mul)).toNat

/-- Model of `hybrid_search(...)` of `src/repo/postgres/retrieve.py`: fetch
`overfetch_amount` candidates from the dense backend and from the sparse
(lexical) backend independently, fuse each aligned pair of per-query result
lists client-side, and truncate each fused list to `top_k`. The two
backends are injected as functions from the requested candidate count to
per-query result lists (they are external database queries). -/
noncomputable def hybrid_search [DecidableEq ι]
    (dense_search sparse_search : ℕ → List (List (RetrievedDocument ι ℝ)))
    (top_k : ℕ) (overfetch_mul : ℚ) (fusion_method : String) :
    Except FusionError (List (Option (List (RetrievedDocument ι ℝ)))) :=
  let amount := overfetch_amount top_k overfetch_mul
  let dense_results := dense_search amount
  let sparse_results := sparse_search amount
  (dense_results.zip sparse_results).mapM
    (fun p => (fuse_results fusion_method p.1 p.2).map
      (fun o => o.map (fun fused => fused.take top_k)))

/-- Python `collections.Counter(tokens)`: per-token occurrence counts in
first-encounter order (a `Counter` is an insertion-ordered dict). -/
def counter : List String → List (String × ℕ) :=
  fun tokens => tokens.foldl (fun acc t => bump acc t 1) []

/-- Python `postings[idx].append([doc_id, tf])`, creating `postings[idx] = []`
first when the key is missing (so a missing key is appended at the end of
the insertion-ordered dict with the one-element list). -/
def insertPosting : List (ℕ × List (ℕ × ℕ)) → ℕ → ℕ × ℕ → List (ℕ × List (ℕ × ℕ))
  | [], idx, p => [(idx, [p])]
  | (j, pl) :: rest, idx, p =>
    if j = idx then (j, pl ++ [p]) :: rest else (j, pl) :: insertPosting rest idx p

/-- The body of `build_inverted_index`'s main loop for one document:
for each `(token, tf)` of the document's `Counter`, resolve or create the
token's vocabulary id (`vocab[token] = len(vocab)` on first sight), then
append the posting `[doc_id, tf]` to that term's postings list. -/
def buildStep (st : List (String × ℕ) × List (ℕ × List (ℕ × ℕ)))
    (docIdTokens : ℕ × List String) :
    List (String × ℕ) × List (ℕ × List (ℕ × ℕ)) :=
  (counter docIdTokens.2).foldl
    (fun vp tokTf =>
      match alookup vp.1 tokTf.1 with
      | some idx => (vp.1, insertPosting vp.2 idx (docIdTokens.1, tokTf.2))
      | none =>
        (vp.1 ++ [(tokTf.1, vp.1.length)],
         insertPosting vp.2 vp.1.length (docIdTokens.1, tokTf.2)))
    st

/-- The index record assembled by `build_inverted_index` (vocabulary,
postings, doc freqs, corpus metadata, uuid table and payload table). -/
structure InvertedIndex where
  vocab : List (String × ℕ)
  postings : List (ℕ × List (ℕ × ℕ))
  doc_freqs : List (ℕ × ℕ)
  doc_count : ℕ
  doc_lens : List ℕ
  avg_doc_len : Option ℚ
  uuids : List String
  docs : List DocumentPayload
deriving DecidableEq

/-- Model of `build_inverted_index(texts, uuids, metadata)`: the tokenizer is an
external collaborator (`bm25s.tokenize` plus an NLTK stemmer), so the
builder is embedded over the already-tokenized corpus. Documents are
enumerated in batch order; postings accumulate per term; afterwards
`doc_freqs[idx] = len(postings[idx])` for every term, and the corpus
metadata records document count, per-document token counts and their
average (`None` for an empty batch). -/
def build_inverted_index (tokenized : List (List String))
    (uuids : List String) (docs : List DocumentPayload) : InvertedIndex :=
  let vp := tokenized.enum.foldl buildStep ([], [])
  { vocab := vp.1
    postings := vp.2
    doc_freqs := vp.2.map (fun p => (p.1, p.2.length))
    doc_count := tokenized.length
    doc_lens := tokenized.map List.length
    avg_doc_len :=
      if 0 < tokenized.length then
        some (((tokenized.map List.length).sum : ℚ) / (tokenized.length : ℚ))
      else none
    uuids := uuids
    docs := docs }

/-- The error raised by the lexical scorers for an unknown scoring method
(`raise ValueError(f"Unknown scoring method: ...")`; the spec's taxonomy
names it `UnsupportedScoringMethodError`). -/
inductive ScoringError
  | unsupportedScoringMethod : String → ScoringError
deriving DecidableEq

/-- The inner loop of `index_retrieve` over one matched term's postings:
`scores[doc_id] = scores.get(doc_id, 0.0)` first totalizes the key, then
the method dispatch adds `qtf * calc_tfidf(...)` or `qtf * calc_okapi_bm25(...)`
— and for any other method string the `else` branch raises, which therefore
only happens when at least one posting is iterated. The scoring helpers
`calc_tfidf` and `calc_okapi_bm25` are imported from a module that is not
part of the source tree, so they are taken as parameters. -/
def scorePostings [LinearOrderedField α] (calcTfidf : ℕ → α → α)
    (calcBM25 : ℕ → α → ℕ → α → α) (method : String) (qtf : ℕ) (idf : α)
    (doc_lens : List ℕ) (avg_doc_len : α) :
    List (ℕ × ℕ) → List (ℕ × α) → Except ScoringError (List (ℕ × α))
  | [], scores => .ok scores
  | (doc_id, tf) :: rest, scores =>
    let scores := if (alookup scores doc_id).isSome then scores
      else scores ++ [(doc_id, 0)]
    if method = "tfidf" then
      scorePostings calcTfidf calcBM25 method qtf idf doc_lens avg_doc_len rest
        (bump scores doc_id ((qtf : α) * calcTfidf tf idf))
    else if method = "okapi-bm25" then
      scorePostings calcTfidf calcBM25 method qtf idf doc_lens avg_doc_len rest
        (bump scores doc_id
          ((qtf : α) * calcBM25 tf idf (doc_lens.getD doc_id 0) avg_doc_len))
    else .error (.unsupportedScoringMethod method)

/-- The loop of `index_retrieve` over one query's token counts: tokens
absent from the vocabulary are skipped (`continue`); for a matched token
the document frequency and `idf = calc_idf(df, N)` are computed and the
term's postings are folded into the score accumulator. `postings[idx]` and
`meta` lookups are totalized with defaults that are never observed on
indexes produced by `build_inverted_index`. -/
def scoreTokens [LinearOrderedField α] (calcIdf : ℕ → ℕ → α)
    (calcTfidf : ℕ → α → α) (calcBM25 : ℕ → α → ℕ → α → α)
    (index : InvertedIndex) (method : String) :
    List (String × ℕ) → List (ℕ × α) → Except ScoringError (List (ℕ × α))
  | [], scores => .ok scores
  | (token, qtf) :: rest, scores =>
    match alookup index.vocab token with
    | none => scoreTokens calcIdf calcTfidf calcBM25 index method rest scores
    | some idx =>
      let df := (alookup index.doc_freqs idx).getD 0
      let idf := calcIdf df index.doc_count
      match scorePostings calcTfidf calcBM25 method qtf idf index.doc_lens
          (((index.avg_doc_len.getD 0 : ℚ) : α))
          ((alookup index.postings idx).getD []) scores with
      | .error e => .error e
      | .ok scores => scoreTokens calcIdf calcTfidf calcBM25 index method rest scores

/-- Model of `index_retrieve(query_texts, ...)` of `src/repo/local/retrieve.py`,
over already-tokenized queries (the tokenizer is an external collaborator):
score each query against the index, stable-sort the score dict items by
score descending, keep the first `top_k`, and hydrate each kept internal
doc id through `uuids[doc_id]` and `docs[doc_id]`. -/
def index_retrieve [LinearOrderedField α] (calcIdf : ℕ → ℕ → α)
    (calcTfidf : ℕ → α → α) (calcBM25 : ℕ → α → ℕ → α → α)
    (index : InvertedIndex) (tokenized_queries : List (List String))
    (top_k : ℕ) (method : String) :
    Except ScoringError (List (List (RetrievedDocument String α))) :=
  tokenized_queries.mapM (fun tokens =>
    match scoreTokens calcIdf calcTfidf calcBM25 index method
        (counter tokens) [] with
    | .error e => .error e
    | .ok scores =>
      let sorted_docs := (sortPairsDesc scores).take top_k
      .ok (sorted_docs.map (fun p =>
        ⟨index.uuids.getD p.1 "", p.2, index.docs.getD p.1 defaultPayload⟩)))

/-- Modelled from the spec: `calc_idf` is imported from a module missing
from the source tree; the spec pins it as the Robertson/BM25 form
`idf(term) = ln((N - df + 0.5) / (df + 0.5) + 1)`. -/
noncomputable def calc_idf (df N : ℕ) : ℝ :=
  Real.log (((N : ℝ) - (df : ℝ) + 1 / 2) / ((df : ℝ) + 1 / 2) + 1)

/-- Modelled from the spec: `calc_tfidf` is imported from a module missing
from the source tree; the spec gives the TF-IDF contribution `tf * idf`
(the query-side factor `qtf` is applied by the caller). -/
noncomputable def calc_tfidf (tf : ℕ) (idf : ℝ) : ℝ := (tf : ℝ) * idf

/-- Modelled from the spec: `calc_okapi_bm25` is imported from a module
missing from the source tree; the spec gives
`idf * (tf * (k1+1)) / (tf + k1 * (1 - b + b * dl/avg_dl))` with
`k1 = 1.5, b = 0.75` (the factor `qtf` is applied by the caller). -/
noncomputable def calc_okapi_bm25 (tf : ℕ) (idf : ℝ) (dl : ℕ) (avg_dl : ℝ) : ℝ :=
  idf * ((tf : ℝ) * (3 / 2 + 1)) /
    ((tf : ℝ) + 3 / 2 * (1 - 3 / 4 + 3 / 4 * (dl : ℝ) / avg_dl))

/-- Failures of a retrieval call as seen at the orchestrator
(`retrieve_documents` in `src/services/public/_retrieve.py`): a typed
backend/collaborator error `ε` (the spec's taxonomy:
`IndexNotFoundError`, `BackendUnavailableError`, ...), or one of the
orchestrator's own `ValueError`s (empty query list, result/query count
mismatch). -/
inductive RetrievalFailure (ε : Type)
  | backend : ε → RetrievalFailure ε
  | emptyQueries : RetrievalFailure ε
  | countMismatch : RetrievalFailure ε
deriving DecidableEq

/-- The per-query loop inside each backend search (`dense_search`,
`sparse_search`, `index_search` all iterate the query batch in one
process-wide call): the first query whose backend call raises aborts the
whole loop with that error; otherwise the per-query result lists are
collected in input order. -/
def batch_search (search : σ → Except ε β) : List σ → Except ε (List β)
  | [] => .ok []
  | q :: qs =>
    match search q with
    | .error e => .error e
    | .ok r =>
      match batch_search search qs with
      | .error e => .error e
      | .ok rs => .ok (r :: rs)

/-- The body of `retrieve_documents` up to its `except` handler: reject an
empty query batch, run the mode's backend over the batch, and reject a
result count that differs from the query count. Scoring and fusion raise
through this body; nothing is caught inside it. The mode dispatch and
embedding generation are collapsed into the injected per-query `search`
function (they are external collaborators). -/
def retrieve_documents_core (search : σ → Except ε β) (queries : List σ) :
    Except (RetrievalFailure ε) (List β) :=
  if queries.isEmpty then .error .emptyQueries
  else
    match batch_search search queries with
    | .error e => .error (.backend e)
    | .ok results =>
      if results.length ≠ queries.length then .error .countMismatch
      else .ok results

/-- Model of `retrieve_documents` with its `except Exception` boundary: a successful
body returns HTTP 200 with the batch results; any raised error is logged
and mapped to HTTP 500 with an empty result list (never partial results). -/
def retrieve_documents (search : σ → Except ε β) (queries : List σ) :
    ℕ × List β :=
  match retrieve_documents_core search queries with
  | .ok results => (200, results)
  | .error _ => (500, [])

/-- Keys of an association list, in insertion order. -/
def keysOf (m : List (ι × α)) : List ι := m.map Prod.fst

/-- Total score lookup with the dict's additive default `0`. -/
def scoreVal [DecidableEq ι] [Zero α] (m : List (ι × α)) (j : ι) : α :=
  (alookup m j).getD 0

/-- Accumulating a whole list of keyed contributions, one `bump` each. -/
def accumAll [DecidableEq ι] [Add α] (st : List (ι × α))
    (contribs : List (ι × α)) : List (ι × α) :=
  contribs.foldl (fun acc c => bump acc c.1 c.2) st

/-- Sum of the contribution values carried by a given key. -/
def sumFor [DecidableEq ι] [AddCommMonoid α] (contribs : List (ι × α)) (j : ι) : α :=
  ((contribs.filter (fun p => p.1 = j)).map Prod.snd).sum

/-- The keyed contribution list of one RRF pass:
pairs `(doc.id, 1 / (k + rank))` in list order. -/
def rrfContribs [LinearOrderedField α] (k : ℕ)
    (results : List (RetrievedDocument ι α)) : List (ι × α) :=
  results.enum.map (fun rd => (rd.2.id, 1 / ((k : α) + (rd.1 : α))))

/-- The per-list RRF score the spec assigns: `1 / (k + rank)` at the
document's 0-based position when the list contains the id, else `0`. -/
def rrf_contrib [DecidableEq ι] [LinearOrderedField α] (k : ℕ)
    (l : List (RetrievedDocument ι α)) (i : ι) : α :=
  if i ∈ l.map RetrievedDocument.id then
    1 / ((k : α) + ((l.map RetrievedDocument.id).indexOf i : α))
  else 0

/-- The keyed contribution list of one DBSF pass (defined whenever the NaN
case of `dbsfPass` does not fire): constant `1/2` when the sample standard
deviation is zero, otherwise the z-score clipped-range rescaling
`(score - lb) / (ub - lb)` with `ub, lb = mean ± 3 std`. -/
noncomputable def dbsfContribs [DecidableEq ι]
    (results : List (RetrievedDocument ι ℝ)) : List (ι × ℝ) :=
  let scores := results.map (fun d => d.score)
  let mean := listMean scores
  let std := sampleStd scores
  if std = 0 then results.map (fun d => (d.id, 1 / 2))
  else results.map (fun d =>
    (d.id, (d.score - (mean - 3 * std)) / ((mean + 3 * std) - (mean - 3 * std))))

/-- Score of the document with the given id in a list (the lists fused have
one document per id, pinned by the no-duplicate hypotheses). -/
noncomputable def scoreOfId [DecidableEq ι] (l : List (RetrievedDocument ι ℝ))
    (i : ι) : ℝ :=
  ((l.find? (fun d => d.id = i)).map (fun d => d.score)).getD 0

/-- The per-list DBSF contribution the (amended) spec assigns: `0` for an
absent id; `1/2` when the list's sample standard deviation is zero; else
`(score - (mean - 3σ)) / (6σ)`. -/
noncomputable def dbsf_contrib [DecidableEq ι] (l : List (RetrievedDocument ι ℝ))
    (i : ι) : ℝ :=
  if i ∈ l.map RetrievedDocument.id then
    (if sampleStd (l.map (fun d => d.score)) = 0 then 1 / 2
     else (scoreOfId l i - (listMean (l.map (fun d => d.score)) -
        3 * sampleStd (l.map (fun d => d.score)))) /
       (6 * sampleStd (l.map (fun d => d.score))))
  else 0

/-- Sixteen documents, one scoring `1` and fifteen scoring `0`: by
Samuelson's inequality a sample this size can put its extreme value more
than three sample standard deviations above the mean, which is exactly
what happens here (`mean = 1/16`, sample `σ = 1/4`, and `1 > 1/16 + 3/4`). -/
def sixteenDocs : List (RetrievedDocument ℕ ℝ) :=
  [⟨0, 1, defaultPayload⟩, ⟨1, 0, defaultPayload⟩, ⟨2, 0, defaultPayload⟩,
   ⟨3, 0, defaultPayload⟩, ⟨4, 0, defaultPayload⟩, ⟨5, 0, defaultPayload⟩,
   ⟨6, 0, defaultPayload⟩, ⟨7, 0, defaultPayload⟩, ⟨8, 0, defaultPayload⟩,
   ⟨9, 0, defaultPayload⟩, ⟨10, 0, defaultPayload⟩, ⟨11, 0, defaultPayload⟩,
   ⟨12, 0, defaultPayload⟩, ⟨13, 0, defaultPayload⟩, ⟨14, 0, defaultPayload⟩,
   ⟨15, 0, defaultPayload⟩]

/-- A backend stub that reports the candidate count it was asked for as the
single returned document id, used to observe what `hybrid_search` requests. -/
def observeBackend : ℕ → List (List (RetrievedDocument ℕ ℝ)) :=
  fun n => [[⟨n, 0, defaultPayload⟩]]

/-- Payloads of the two-document corpus used to exercise the lexical
scorer's tie-breaking: document 0 is the text `x`, document 1 the text `y`. -/
def payX : DocumentPayload := ⟨"x", ""⟩

def payY : DocumentPayload := ⟨"y", ""⟩

/-- The lexical index of the tokenized corpus `[["x"], ["y"]]` with uuids
`u0, u1` (what `build_inverted_index` produces for it): term `x` is id 0
with the single posting `(0, 1)`, term `y` is id 1 with `(1, 1)`, both
documents have length 1. -/
def twoDocIndex : InvertedIndex :=
  { vocab := [("x", 0), ("y", 1)]
    postings := [(0, [(0, 1)]), (1, [(1, 1)])]
    doc_freqs := [(0, 1), (1, 1)]
    doc_count := 2
    doc_lens := [1, 1]
    avg_doc_len := some 1
    uuids := ["u0", "u1"]
    docs := [payX, payY] }

/-- The (identical) BM25 score both documents of `twoDocIndex` receive for
the query `y x`: same `qtf`, `tf`, `df`, document length and average. -/
noncomputable def twoDocScore : ℝ :=
  0 + ((1 : ℕ) : ℝ) * calc_okapi_bm25 1 (calc_idf 1 2) 1 ((1 : ℚ) : ℝ)

/-- Well-formedness of the builder's vocabulary: distinct terms, and term
ids assigned sequentially (`vocab[token] = len(vocab)` at insertion). -/
def VocabOK (v : List (String × ℕ)) : Prop :=
  (keysOf v).Nodup ∧ v.map Prod.snd = List.range v.length

/-- Well-formedness of the postings under construction: per term, strictly
increasing doc ids, all below the bound, and positive term frequencies. -/
def PostOK (n : ℕ) (P : List (ℕ × List (ℕ × ℕ))) : Prop :=
  ∀ idx pl, alookup P idx = some pl →
    (pl.map Prod.fst).Pairwise (· < ·) ∧ ∀ q ∈ pl, q.1 < n ∧ 1 ≤ q.2

/-- The per-token body of `build_inverted_index`'s loop, with the current
document id `n` fixed (named form of the lambda inside `buildStep`). -/
def buildTok (n : ℕ) (vp : List (String × ℕ) × List (ℕ × List (ℕ × ℕ)))
    (tokTf : String × ℕ) :
    List (String × ℕ) × List (ℕ × List (ℕ × ℕ)) :=
  match alookup vp.1 tokTf.1 with
  | some idx => (vp.1, insertPosting vp.2 idx (n, tokTf.2))
  | none =>
    (vp.1 ++ [(tokTf.1, vp.1.length)],
     insertPosting vp.2 vp.1.length (n, tokTf.2))

theorem alookup_append [DecidableEq ι] (m₁ m₂ : List (ι × β)) (i : ι) :
    alookup (m₁ ++ m₂) i = (alookup m₁ i).orElse (fun _ => alookup m₂ i) := by
  induction m₁ with
  | nil => simp [alookup]
  | cons p m ih =>
    obtain ⟨j, b⟩ := p
    by_cases h : j = i <;> simp [alookup, h, ih]

theorem keysOf_cons (p : ι × β) (m : List (ι × β)) :
    keysOf (p :: m) = p.1 :: keysOf m := rfl

theorem alookup_isSome_iff_mem_keys [DecidableEq ι] (m : List (ι × β)) (i : ι) :
    (alookup m i).isSome ↔ i ∈ keysOf m := by
  induction m with
  | nil => simp [alookup, keysOf]
  | cons p m ih =>
    obtain ⟨j, b⟩ := p
    rw [keysOf_cons, List.mem_cons]
    by_cases h : j = i
    · simp [alookup, h]
    · have h' : ¬ i = j := fun hh => h hh.symm
      simp [alookup, h, h', ih]

theorem alookup_eq_none_iff_not_mem [DecidableEq ι] (m : List (ι × β)) (i : ι) :
    alookup m i = none ↔ i ∉ keysOf m := by
  rw [← alookup_isSome_iff_mem_keys, Option.not_isSome_iff_eq_none]

theorem keysOf_bump [DecidableEq ι] [Add α] (m : List (ι × α)) (i : ι) (v : α) :
    keysOf (bump m i v) = if i ∈ keysOf m then keysOf m else keysOf m ++ [i] := by
  induction m with
  | nil => simp [bump, keysOf]
  | cons p m ih =>
    obtain ⟨j, w⟩ := p
    by_cases h : j = i
    · subst h
      simp [bump, keysOf_cons]
    · have h' : ¬ i = j := fun hh => h hh.symm
      have hb : bump ((j, w) :: m) i v = (j, w) :: bump m i v := by
        simp [bump, h]
      rw [hb, keysOf_cons, keysOf_cons, ih]
      by_cases hm : i ∈ keysOf m
      · simp [hm, h']
      · simp [hm, h']

theorem scoreVal_bump [DecidableEq ι] [AddMonoid α] (m : List (ι × α)) (i j : ι)
    (v : α) :
    scoreVal (bump m i v) j = if j = i then scoreVal m i + v else scoreVal m j := by
  induction m with
  | nil =>
    by_cases h : j = i
    · subst h
      simp [bump, scoreVal, alookup]
    · have h' : ¬ i = j := fun hh => h hh.symm
      simp [bump, scoreVal, alookup, h, h']
  | cons p m ih =>
    obtain ⟨l, w⟩ := p
    by_cases hl : l = i
    · subst hl
      by_cases h : j = l
      · subst h
        simp [bump, scoreVal, alookup]
      · have h' : ¬ l = j := fun hh => h hh.symm
        simp [bump, scoreVal, alookup, h, h']
    · have hb : bump ((l, w) :: m) i v = (l, w) :: bump m i v := by
        simp [bump, hl]
      rw [hb]
      by_cases h2 : l = j
      · subst h2
        have h3 : ¬ l = i := hl
        rw [if_neg (fun hh : l = i => hl hh)]
        simp [scoreVal, alookup]
      · rw [scoreVal, alookup, if_neg h2]
        by_cases h : j = i
        · subst h
          rw [if_pos rfl, scoreVal, alookup, if_neg hl]
          have := ih
          rw [if_pos rfl] at this
          exact this
        · rw [if_neg h, scoreVal, alookup, if_neg h2]
          have := ih
          rw [if_neg h] at this
          exact this

theorem keysOf_nodup_bump [DecidableEq ι] [Add α] (m : List (ι × α)) (i : ι)
    (v : α) (h : (keysOf m).Nodup) : (keysOf (bump m i v)).Nodup := by
  rw [keysOf_bump]
  by_cases hm : i ∈ keysOf m
  · simpa [hm] using h
  · simp only [hm, if_false]
    exact (List.nodup_append).2 ⟨h, List.nodup_singleton i, by simpa using hm⟩

theorem scoreVal_accumAll [DecidableEq ι] [AddCommMonoid α]
    (contribs : List (ι × α)) (st : List (ι × α)) (j : ι) :
    scoreVal (accumAll st contribs) j = scoreVal st j + sumFor contribs j := by
  induction contribs generalizing st with
  | nil => simp [accumAll, sumFor]
  | cons c cs ih =>
    obtain ⟨i, v⟩ := c
    have step : accumAll st ((i, v) :: cs) = accumAll (bump st i v) cs := rfl
    rw [step, ih, scoreVal_bump]
    by_cases h : j = i
    · subst h
      simp [sumFor, add_assoc]
    · have h' : ¬ i = j := fun hh => h hh.symm
      simp [sumFor, h, h']

theorem mem_keys_bump [DecidableEq ι] [Add α] (m : List (ι × α)) (i j : ι)
    (v : α) : j ∈ keysOf (bump m i v) ↔ j = i ∨ j ∈ keysOf m := by
  rw [keysOf_bump]
  by_cases hm : i ∈ keysOf m
  · rw [if_pos hm]
    constructor
    · exact Or.inr
    · rintro (rfl | h)
      · exact hm
      · exact h
  · rw [if_neg hm]
    simp [or_comm]

theorem mem_keys_accumAll [DecidableEq ι] [Add α]
    (contribs : List (ι × α)) (st : List (ι × α)) (j : ι) :
    j ∈ keysOf (accumAll st contribs) ↔ j ∈ keysOf st ∨ j ∈ keysOf contribs := by
  induction contribs generalizing st with
  | nil => simp [accumAll, keysOf]
  | cons c cs ih =>
    obtain ⟨i, v⟩ := c
    have step : accumAll st ((i, v) :: cs) = accumAll (bump st i v) cs := rfl
    rw [step, ih, mem_keys_bump, keysOf_cons, List.mem_cons]
    tauto

theorem keysOf_nodup_accumAll [DecidableEq ι] [Add α]
    (contribs : List (ι × α)) (st : List (ι × α)) (h : (keysOf st).Nodup) :
    (keysOf (accumAll st contribs)).Nodup := by
  induction contribs generalizing st with
  | nil => simpa [accumAll]
  | cons c cs ih =>
    exact ih (bump st c.1 c.2) (keysOf_nodup_bump st c.1 c.2 h)

theorem sumFor_append [DecidableEq ι] [AddCommMonoid α]
    (c₁ c₂ : List (ι × α)) (j : ι) :
    sumFor (c₁ ++ c₂) j = sumFor c₁ j + sumFor c₂ j := by
  simp [sumFor, List.filter_append]

theorem sumFor_eq_zero_of_not_mem [DecidableEq ι] [AddCommMonoid α]
    (contribs : List (ι × α)) (j : ι) (h : j ∉ keysOf contribs) :
    sumFor contribs j = 0 := by
  induction contribs with
  | nil => simp [sumFor]
  | cons c cs ih =>
    obtain ⟨i, v⟩ := c
    have h1 : ¬ i = j := by
      intro hh; exact h (by simp [keysOf, hh])
    have h2 : j ∉ keysOf cs := fun hh => h (by simp [keysOf] at hh ⊢; tauto)
    simpa [sumFor, h1] using ih h2

theorem sumFor_eq_of_mem_nodup [DecidableEq ι] [AddCommMonoid α]
    (contribs : List (ι × α)) (j : ι) (v : α)
    (hn : (keysOf contribs).Nodup) (hm : (j, v) ∈ contribs) :
    sumFor contribs j = v := by
  induction contribs with
  | nil => simp at hm
  | cons c cs ih =>
    obtain ⟨i, w⟩ := c
    rw [keysOf_cons, List.nodup_cons] at hn
    rcases List.mem_cons.1 hm with h | h
    · injection h with h1 h2
      subst h1
      subst h2
      have hz : sumFor cs j = 0 := sumFor_eq_zero_of_not_mem cs j hn.1
      rw [sumFor, List.filter_cons_of_pos (by simp)]
      rw [List.map_cons, List.sum_cons]
      have : sumFor cs j = 0 := hz
      rw [sumFor] at this
      rw [this, add_zero]
    · have hi : ¬ i = j := by
        intro hh
        subst hh
        exact hn.1 (by simpa [keysOf] using List.mem_map_of_mem Prod.fst h)
      have hrec := ih hn.2 h
      rw [sumFor, List.filter_cons_of_neg (by simp [hi])]
      rw [sumFor] at hrec
      exact hrec

theorem pairwise_true (l : List β) : l.Pairwise (fun _ _ => True) := by
  induction l with
  | nil => exact List.Pairwise.nil
  | cons a l ih => exact List.Pairwise.cons (fun _ _ => trivial) ih

theorem orderedInsert_desc_stable [LinearOrder κ] (key : β → κ) (S : β → β → Prop)
    (a : β) (l : List β)
    (hl : l.Pairwise (fun x y => key y ≤ key x ∧ (key x = key y → S x y)))
    (ha : ∀ b ∈ l, S a b) :
    (List.orderedInsert (fun x y => key y ≤ key x) a l).Pairwise
      (fun x y => key y ≤ key x ∧ (key x = key y → S x y)) := by
  induction l with
  | nil => simp [List.orderedInsert]
  | cons b l ih =>
    rw [List.orderedInsert]
    by_cases h : key b ≤ key a
    · rw [if_pos h]
      refine List.Pairwise.cons ?_ hl
      intro c hc
      rcases List.mem_cons.1 hc with rfl | hc'
      · exact ⟨h, fun _ => ha c (List.mem_cons_self _ _)⟩
      · have hbc := (List.pairwise_cons.1 hl).1 c hc'
        exact ⟨le_trans hbc.1 h, fun _ => ha c (List.mem_cons.2 (Or.inr hc'))⟩
    · rw [if_neg h]
      have hab : key a < key b := lt_of_not_le h
      refine List.Pairwise.cons ?_
        (ih (List.pairwise_cons.1 hl).2
          (fun c hc => ha c (List.mem_cons.2 (Or.inr hc))))
      intro c hc
      rcases (List.mem_orderedInsert _).1 hc with rfl | hc'
      · exact ⟨le_of_lt hab, fun heq => absurd heq (ne_of_gt hab)⟩
      · exact (List.pairwise_cons.1 hl).1 c hc'

/-- CPython's stable descending sort: the result is weakly descending in the
key, and two elements with equal keys appear in their original relative
order (recorded through any relation `S` that pairwise held on the input). -/
theorem insertionSort_desc_stable [LinearOrder κ] (key : β → κ) (S : β → β → Prop) :
    ∀ l : List β, l.Pairwise S →
    (l.insertionSort (fun x y => key y ≤ key x)).Pairwise
      (fun x y => key y ≤ key x ∧ (key x = key y → S x y)) := by
  intro l
  induction l with
  | nil => intro _; exact List.Pairwise.nil
  | cons a l ih =>
    intro hp
    have step : (a :: l).insertionSort (fun x y => key y ≤ key x) =
        List.orderedInsert (fun x y => key y ≤ key x) a
          (l.insertionSort (fun x y => key y ≤ key x)) := rfl
    rw [step]
    refine orderedInsert_desc_stable key S a _ (ih (List.pairwise_cons.1 hp).2) ?_
    intro b hb
    exact (List.pairwise_cons.1 hp).1 b ((List.mem_insertionSort _).1 hb)

theorem keys_accumAll_firstocc [DecidableEq ι] [Add α] :
    ∀ (cs st : List (ι × α)) (done full : List ι),
    full = done ++ keysOf cs →
    (∀ a, a ∈ keysOf st ↔ a ∈ done) →
    (keysOf st).Pairwise (fun a b => full.indexOf a < full.indexOf b) →
    (keysOf (accumAll st cs)).Pairwise
      (fun a b => full.indexOf a < full.indexOf b) := by
  intro cs
  induction cs with
  | nil =>
    intro st done full _ _ hp
    simpa [accumAll] using hp
  | cons c cs ih =>
    intro st done full hfull hmem hp
    obtain ⟨i, v⟩ := c
    have step : accumAll st ((i, v) :: cs) = accumAll (bump st i v) cs := rfl
    rw [step]
    have hfull' : full = (done ++ [i]) ++ keysOf cs := by
      rw [hfull, keysOf_cons, List.append_assoc, List.singleton_append]
    have hmem' : ∀ a, a ∈ keysOf (bump st i v) ↔ a ∈ done ++ [i] := by
      intro a
      rw [mem_keys_bump, hmem a, List.mem_append, List.mem_singleton, or_comm]
    refine ih (bump st i v) (done ++ [i]) full hfull' hmem' ?_
    rw [keysOf_bump]
    by_cases hin : i ∈ keysOf st
    · rw [if_pos hin]
      exact hp
    · rw [if_neg hin]
      have hidone : i ∉ done := fun hh => hin ((hmem i).2 hh)
      rw [List.pairwise_append]
      refine ⟨hp, List.pairwise_singleton _ i, ?_⟩
      intro a ha b hb
      rw [List.mem_singleton] at hb
      subst hb
      have hadone : a ∈ done := (hmem a).1 ha
      have hA : full.indexOf a < done.length := by
        rw [hfull, List.indexOf_append_of_mem hadone]
        exact List.indexOf_lt_length.2 hadone
      have hB : full.indexOf b = done.length := by
        rw [hfull, List.indexOf_append_of_not_mem hidone, keysOf_cons,
          List.indexOf_cons_self, Nat.add_zero]
      rw [hB]
      exact hA

theorem alookup_eq_of_mem_nodup [DecidableEq ι] (m : List (ι × β)) (j : ι) (v : β)
    (hn : (keysOf m).Nodup) (hm : (j, v) ∈ m) : alookup m j = some v := by
  induction m with
  | nil => simp at hm
  | cons c cs ih =>
    obtain ⟨i, w⟩ := c
    rw [keysOf_cons, List.nodup_cons] at hn
    rcases List.mem_cons.1 hm with h | h
    · injection h with h1 h2
      subst h1
      subst h2
      simp [alookup]
    · have hi : ¬ i = j := by
        intro hh
        subst hh
        exact hn.1 (by simpa [keysOf] using List.mem_map_of_mem Prod.fst h)
      rw [alookup, if_neg hi]
      exact ih hn.2 h

theorem rrfPass_eq_accumAll [DecidableEq ι] [LinearOrderedField α] (k : ℕ)
    (st : List (ι × α)) (results : List (RetrievedDocument ι α)) :
    rrfPass k st results = accumAll st (rrfContribs k results) := by
  rw [rrfPass, accumAll, rrfContribs, List.foldl_map]

theorem keysOf_rrfContribs [LinearOrderedField α] (k : ℕ)
    (results : List (RetrievedDocument ι α)) :
    keysOf (rrfContribs k results) = results.map RetrievedDocument.id := by
  rw [keysOf, rrfContribs, List.map_map]
  have : (Prod.fst ∘ fun rd : ℕ × RetrievedDocument ι α =>
      (rd.2.id, 1 / ((k : α) + (rd.1 : α)))) =
      (RetrievedDocument.id ∘ Prod.snd) := rfl
  rw [this, ← List.map_map, List.enum_map_snd]

theorem mem_rrfContribs_enumFrom [DecidableEq ι] [LinearOrderedField α] (k : ℕ) :
    ∀ (l : List (RetrievedDocument ι α)) (n : ℕ) (i : ι),
    i ∈ l.map RetrievedDocument.id →
    (i, 1 / ((k : α) + ((n + (l.map RetrievedDocument.id).indexOf i : ℕ) : α))) ∈
      (l.enumFrom n).map (fun rd => (rd.2.id, 1 / ((k : α) + (rd.1 : α)))) := by
  intro l
  induction l with
  | nil => intro n i hi; simp at hi
  | cons d l ih =>
    intro n i hi
    rw [List.enumFrom_cons]
    by_cases h : d.id = i
    · subst h
      simp only [List.map_cons, List.indexOf_cons_self, Nat.add_zero]
      exact List.mem_cons_self _ _
    · have hi' : i ∈ l.map RetrievedDocument.id := by
        rw [List.map_cons, List.mem_cons] at hi
        rcases hi with hh | hh
        · exact absurd hh.symm h
        · exact hh
      simp only [List.map_cons]
      rw [List.indexOf_cons_ne _ h]
      have harith : n + ((l.map RetrievedDocument.id).indexOf i).succ =
          (n + 1) + (l.map RetrievedDocument.id).indexOf i := by omega
      rw [harith]
      exact List.mem_cons_of_mem _ (ih (n + 1) i hi')

theorem sumFor_rrfContribs [DecidableEq ι] [LinearOrderedField α] (k : ℕ)
    (l : List (RetrievedDocument ι α)) (i : ι)
    (hn : (l.map RetrievedDocument.id).Nodup) :
    sumFor (rrfContribs k l) i = rrf_contrib k l i := by
  by_cases hi : i ∈ l.map RetrievedDocument.id
  · have hmem := mem_rrfContribs_enumFrom k l 0 i hi
    rw [Nat.zero_add] at hmem
    rw [rrf_contrib, if_pos hi]
    exact sumFor_eq_of_mem_nodup _ i _ (by rwa [keysOf_rrfContribs]) hmem
  · rw [rrf_contrib, if_neg hi]
    exact sumFor_eq_zero_of_not_mem _ i (by rwa [keysOf_rrfContribs])

theorem rrf_contrib_nonneg [DecidableEq ι] [LinearOrderedField α] (k : ℕ)
    (hk : 0 < k) (l : List (RetrievedDocument ι α)) (i : ι) :
    0 ≤ rrf_contrib k l i := by
  rw [rrf_contrib]
  by_cases hi : i ∈ l.map RetrievedDocument.id
  · rw [if_pos hi]
    have hkpos : (0 : α) < (k : α) + ((l.map RetrievedDocument.id).indexOf i : α) := by
      have h1 : (0 : α) < (k : α) := by exact_mod_cast hk
      have h2 : (0 : α) ≤ ((l.map RetrievedDocument.id).indexOf i : α) := by
        exact_mod_cast Nat.zero_le _
      linarith
    positivity
  · rw [if_neg hi]

theorem rrf_contrib_pos [DecidableEq ι] [LinearOrderedField α] (k : ℕ)
    (hk : 0 < k) (l : List (RetrievedDocument ι α)) (i : ι)
    (hi : i ∈ l.map RetrievedDocument.id) : 0 < rrf_contrib k l i := by
  rw [rrf_contrib, if_pos hi]
  have h1 : (0 : α) < (k : α) := by exact_mod_cast hk
  have h2 : (0 : α) ≤ ((l.map RetrievedDocument.id).indexOf i : α) := by
    exact_mod_cast Nat.zero_le _
  have : (0 : α) < (k : α) + ((l.map RetrievedDocument.id).indexOf i : α) := by
    linarith
  positivity

theorem accumAll_append [DecidableEq ι] [Add α] (st c₁ c₂ : List (ι × α)) :
    accumAll st (c₁ ++ c₂) = accumAll (accumAll st c₁) c₂ :=
  List.foldl_append _ _ _ _

theorem keysOf_append (m₁ m₂ : List (ι × β)) :
    keysOf (m₁ ++ m₂) = keysOf m₁ ++ keysOf m₂ :=
  List.map_append _ _ _

theorem scoreVal_nil [DecidableEq ι] [Zero α] (j : ι) :
    scoreVal ([] : List (ι × α)) j = 0 := rfl

/-- The fused score accumulator of `_fuse_rrf` is the one-shot accumulation
of both lists' keyed contributions. -/
theorem fuse_rrf_scores [DecidableEq ι] [LinearOrderedField α] (k : ℕ)
    (r1 r2 : List (RetrievedDocument ι α)) :
    rrfPass k (rrfPass k [] r1) r2 =
      accumAll [] (rrfContribs k r1 ++ rrfContribs k r2) := by
  rw [rrfPass_eq_accumAll, rrfPass_eq_accumAll, accumAll_append]

theorem scoreVal_fuse_rrf [DecidableEq ι] [LinearOrderedField α] (k : ℕ)
    (r1 r2 : List (RetrievedDocument ι α)) (i : ι)
    (h1 : (r1.map RetrievedDocument.id).Nodup)
    (h2 : (r2.map RetrievedDocument.id).Nodup) :
    scoreVal (rrfPass k (rrfPass k [] r1) r2) i =
      rrf_contrib k r1 i + rrf_contrib k r2 i := by
  rw [fuse_rrf_scores, scoreVal_accumAll, scoreVal_nil, zero_add, sumFor_append,
    sumFor_rrfContribs k r1 i h1, sumFor_rrfContribs k r2 i h2]

theorem mem_keys_fuse_rrf [DecidableEq ι] [LinearOrderedField α] (k : ℕ)
    (r1 r2 : List (RetrievedDocument ι α)) (i : ι) :
    i ∈ keysOf (rrfPass k (rrfPass k [] r1) r2) ↔
      i ∈ r1.map RetrievedDocument.id ∨ i ∈ r2.map RetrievedDocument.id := by
  rw [fuse_rrf_scores, mem_keys_accumAll, keysOf_append, keysOf_rrfContribs,
    keysOf_rrfContribs, List.mem_append]
  simp [keysOf]

/-- C1: for every pair of input result lists (each free of internal duplicate
ids) and every positive RRF constant `k`, `_fuse_rrf` assigns each output
document the fused score `Σ 1/(k + rank)` over the input lists containing
its id (`rank` the 0-based position there); exactly the ids of the two
input lists appear in the output; every fused score is strictly positive,
so a document found in only one list still scores from that list alone;
and the output is ordered by fused score descending with ties broken by
the input order of first occurrence (`results1` scanned before `results2`).
The configured default constant is `RRF_K = 2 > 0`. -/
theorem rrf_fusion_faithful {ι α : Type} [DecidableEq ι] [LinearOrderedField α]
    (k : ℕ) (r1 r2 : List (RetrievedDocument ι α)) (hk : 0 < k)
    (h1 : (r1.map RetrievedDocument.id).Nodup)
    (h2 : (r2.map RetrievedDocument.id).Nodup) :
    (∀ d ∈ fuse_rrf k r1 r2,
        d.score = rrf_contrib k r1 d.id + rrf_contrib k r2 d.id) ∧
    (∀ i : ι, (∃ d ∈ fuse_rrf k r1 r2, d.id = i) ↔
        i ∈ r1.map RetrievedDocument.id ∨ i ∈ r2.map RetrievedDocument.id) ∧
    (∀ d ∈ fuse_rrf k r1 r2, 0 < d.score) ∧
    ((fuse_rrf k r1 r2).Pairwise (fun x y => y.score ≤ x.score ∧
      (x.score = y.score →
        ((r1 ++ r2).map RetrievedDocument.id).indexOf x.id <
        ((r1 ++ r2).map RetrievedDocument.id).indexOf y.id))) ∧
    RRF_K = 2 := by
  have hfused := fuse_rrf_scores k r1 r2
  have hnodup : (keysOf (rrfPass k (rrfPass k [] r1) r2)).Nodup := by
    rw [hfused]
    exact keysOf_nodup_accumAll _ [] List.nodup_nil
  by_cases hempty : rrfPass k (rrfPass k [] r1) r2 = []
  · have hout : fuse_rrf k r1 r2 = [] := by
      rw [fuse_rrf]
      simp [hempty]
    refine ⟨?_, ?_, ?_, ?_, rfl⟩
    · intro d hd; rw [hout] at hd; simp at hd
    · intro i
      constructor
      · rintro ⟨d, hd, rfl⟩; rw [hout] at hd; simp at hd
      · intro hmem
        have : i ∈ keysOf (rrfPass k (rrfPass k [] r1) r2) :=
          (mem_keys_fuse_rrf k r1 r2 i).2 hmem
        rw [hempty] at this
        simp [keysOf] at this
    · intro d hd; rw [hout] at hd; simp at hd
    · rw [hout]; exact List.Pairwise.nil
  · have hout : fuse_rrf k r1 r2 = sortByScoreDesc
        ((rrfPass k (rrfPass k [] r1) r2).map
          (fun p => ⟨p.1, p.2, payloadOf (addDocs (addDocs [] r1) r2) p.1⟩)) := by
      rw [fuse_rrf]
      simp only [hempty, if_neg hempty, if_false]
    have hmem_out : ∀ d, d ∈ fuse_rrf k r1 r2 ↔
        d ∈ (rrfPass k (rrfPass k [] r1) r2).map
          (fun p => (⟨p.1, p.2, payloadOf (addDocs (addDocs [] r1) r2) p.1⟩ :
            RetrievedDocument ι α)) := by
      intro d
      rw [hout, sortByScoreDesc, List.mem_insertionSort]
    have hscore : ∀ d ∈ fuse_rrf k r1 r2,
        d.score = rrf_contrib k r1 d.id + rrf_contrib k r2 d.id := by
      intro d hd
      rcases List.mem_map.1 ((hmem_out d).1 hd) with ⟨p, hp, hpd⟩
      have hval : scoreVal (rrfPass k (rrfPass k [] r1) r2) p.1 = p.2 := by
        rw [scoreVal, alookup_eq_of_mem_nodup _ p.1 p.2 hnodup
          (by simpa using hp), Option.getD_some]
      have hid : d.id = p.1 := by rw [← hpd]
      have hsc : d.score = p.2 := by rw [← hpd]
      rw [hsc, hid, ← hval, scoreVal_fuse_rrf k r1 r2 p.1 h1 h2]
    have hmemkeys : ∀ d ∈ fuse_rrf k r1 r2,
        d.id ∈ r1.map RetrievedDocument.id ∨ d.id ∈ r2.map RetrievedDocument.id := by
      intro d hd
      rcases List.mem_map.1 ((hmem_out d).1 hd) with ⟨p, hp, hpd⟩
      have hid : d.id = p.1 := by rw [← hpd]
      rw [hid, ← mem_keys_fuse_rrf k r1 r2 p.1]
      simpa [keysOf] using List.mem_map_of_mem Prod.fst hp
    refine ⟨hscore, ?_, ?_, ?_, rfl⟩
    · intro i
      constructor
      · rintro ⟨d, hd, rfl⟩
        exact hmemkeys d hd
      · intro hmem
        have hkey : i ∈ keysOf (rrfPass k (rrfPass k [] r1) r2) :=
          (mem_keys_fuse_rrf k r1 r2 i).2 hmem
        have hkey2 : ∃ v, (i, v) ∈ rrfPass k (rrfPass k [] r1) r2 := by
          simpa [keysOf] using hkey
        rcases hkey2 with ⟨v, hv⟩
        exact ⟨⟨i, v, payloadOf (addDocs (addDocs [] r1) r2) i⟩,
          (hmem_out _).2 (List.mem_map_of_mem _ hv), rfl⟩
    · intro d hd
      rw [hscore d hd]
      rcases hmemkeys d hd with hmem | hmem
      · have hpos := rrf_contrib_pos k hk r1 d.id hmem
        have hnn := rrf_contrib_nonneg k hk r2 d.id
        linarith
      · have hpos := rrf_contrib_pos k hk r2 d.id hmem
        have hnn := rrf_contrib_nonneg k hk r1 d.id
        linarith
    · have hkeyorder : (keysOf (rrfPass k (rrfPass k [] r1) r2)).Pairwise
          (fun a b => ((r1 ++ r2).map RetrievedDocument.id).indexOf a <
            ((r1 ++ r2).map RetrievedDocument.id).indexOf b) := by
        rw [hfused]
        refine keys_accumAll_firstocc _ [] []
          ((r1 ++ r2).map RetrievedDocument.id) ?_ ?_ ?_
        · rw [List.nil_append, keysOf_append, keysOf_rrfContribs,
            keysOf_rrfContribs, List.map_append]
        · intro a; simp [keysOf]
        · exact List.Pairwise.nil
      have hitems : ((rrfPass k (rrfPass k [] r1) r2).map
          (fun p => (⟨p.1, p.2, payloadOf (addDocs (addDocs [] r1) r2) p.1⟩ :
            RetrievedDocument ι α))).Pairwise
          (fun x y => ((r1 ++ r2).map RetrievedDocument.id).indexOf x.id <
            ((r1 ++ r2).map RetrievedDocument.id).indexOf y.id) := by
        rw [List.pairwise_map]
        have := (List.pairwise_map.1 hkeyorder)
        exact this
      rw [hout, sortByScoreDesc]
      exact insertionSort_desc_stable RetrievedDocument.score _ _ hitems

/-- Witness for C1: the hypotheses of `rrf_fusion_faithful` hold at the
concrete input `k = 2`, `results1 = [doc 1]`, `results2 = []`, and the
theorem applies there. -/
theorem rrf_fusion_faithful_witness :
    (0 : ℕ) < 2 ∧
    (([⟨1, (1 : ℚ), defaultPayload⟩] : List (RetrievedDocument ℕ ℚ)).map
      RetrievedDocument.id).Nodup ∧
    (([] : List (RetrievedDocument ℕ ℚ)).map RetrievedDocument.id).Nodup ∧
    RRF_K = 2 :=
  ⟨by decide, by decide, by decide,
    (rrf_fusion_faithful 2 [⟨1, (1 : ℚ), defaultPayload⟩] [] (by decide)
      (by decide) (by decide)).2.2.2.2⟩

/-- C5: `fuse_results` never raises an empty-input error: fusing two empty
lists succeeds with the empty result for both methods; every run with a
recognized method succeeds (so a call with at least one non-empty list
never fails); every failure comes from an unrecognized method and is the
unsupported-fusion-method error; and an unrecognized method always fails
with exactly that error. -/
theorem fuse_results_error_behavior {ι : Type} [DecidableEq ι] :
    (fuse_results (ι := ι) "rrf" [] [] = .ok (some []) ∧
      fuse_results (ι := ι) "dbsf" [] [] = .ok (some [])) ∧
    (∀ (r1 r2 : List (RetrievedDocument ι ℝ)) (m : String),
      m = "rrf" ∨ m = "dbsf" → ∃ o, fuse_results m r1 r2 = .ok o) ∧
    (∀ (m : String) (r1 r2 : List (RetrievedDocument ι ℝ)) (e : FusionError),
      fuse_results m r1 r2 = .error e →
        m ≠ "rrf" ∧ m ≠ "dbsf" ∧ e = .unsupportedFusionMethod m) ∧
    (∀ (m : String) (r1 r2 : List (RetrievedDocument ι ℝ)),
      m ≠ "rrf" → m ≠ "dbsf" →
      fuse_results m r1 r2 = .error (.unsupportedFusionMethod m)) := by
  refine ⟨⟨?_, ?_⟩, ?_, ?_, ?_⟩
  · rfl
  · rfl
  · intro r1 r2 m hm
    rcases hm with rfl | rfl
    · exact ⟨some (fuse_rrf RRF_K r1 r2), by rw [fuse_results, if_pos rfl]⟩
    · exact ⟨fuse_dbsf r1 r2, by
        rw [fuse_results, if_neg (by decide), if_pos rfl]⟩
  · intro m r1 r2 e h
    by_cases h1 : m = "rrf"
    · rw [fuse_results, if_pos h1] at h
      exact absurd h (by simp)
    · by_cases h2 : m = "dbsf"
      · rw [fuse_results, if_neg h1, if_pos h2] at h
        exact absurd h (by simp)
      · rw [fuse_results, if_neg h1, if_neg h2] at h
        injection h with h3
        exact ⟨h1, h2, h3.symm⟩
  · intro m r1 r2 h1 h2
    rw [fuse_results, if_neg h1, if_neg h2]

/-- Witness for C5: the hypotheses of `fuse_results_error_behavior`'s
quantified parts hold at the concrete method string `"bm25"`, which is
neither `"rrf"` nor `"dbsf"`, and the theorem applies there. -/
theorem fuse_results_error_behavior_witness :
    fuse_results "bm25" ([] : List (RetrievedDocument ℕ ℝ)) [] =
      .error (.unsupportedFusionMethod "bm25") :=
  (fuse_results_error_behavior (ι := ℕ)).2.2.2 "bm25" [] [] (by decide) (by decide)

theorem addDocs_append [DecidableEq ι] (st : List (ι × RetrievedDocument ι α))
    (l₁ l₂ : List (RetrievedDocument ι α)) :
    addDocs st (l₁ ++ l₂) = addDocs (addDocs st l₁) l₂ :=
  List.foldl_append _ _ _ _

theorem alookup_addDocs [DecidableEq ι] :
    ∀ (l : List (RetrievedDocument ι α)) (st : List (ι × RetrievedDocument ι α))
      (i : ι),
    alookup (addDocs st l) i =
      (alookup st i).orElse (fun _ => l.find? (fun d => d.id = i)) := by
  intro l
  induction l with
  | nil =>
    intro st i
    simp [addDocs, List.find?]
  | cons d l ih =>
    intro st i
    have step : addDocs st (d :: l) =
        addDocs (if (alookup st d.id).isSome then st else st ++ [(d.id, d)]) l := rfl
    rw [step, ih]
    by_cases hd : (alookup st d.id).isSome
    · rw [if_pos hd]
      by_cases hi : d.id = i
      · subst hi
        rcases Option.isSome_iff_exists.1 hd with ⟨x, hx⟩
        simp [hx, List.find?]
      · have : (List.find? (fun x => decide (x.id = i)) (d :: l)) =
            List.find? (fun x => decide (x.id = i)) l := by
          rw [List.find?_cons_of_neg _ (by simpa using hi)]
        rw [this]
    · rw [if_neg hd]
      rw [Option.not_isSome_iff_eq_none] at hd
      rw [alookup_append]
      by_cases hi : d.id = i
      · subst hi
        simp [hd, alookup, List.find?]
      · have hfind : (List.find? (fun x => decide (x.id = i)) (d :: l)) =
            List.find? (fun x => decide (x.id = i)) l := by
          rw [List.find?_cons_of_neg _ (by simpa using hi)]
        have halo : alookup [(d.id, d)] i = none := by
          simp [alookup, hi]
        rw [hfind, halo]
        rcases h : alookup st i with _ | x <;> simp [h, Option.orElse]

/-- The payload `_fuse_rrf`/`_fuse_dbsf` attach to an output id is the
payload of the first document with that id across `results1 ++ results2`. -/
theorem payloadOf_addDocs [DecidableEq ι]
    (r1 r2 : List (RetrievedDocument ι α)) (i : ι) :
    payloadOf (addDocs (addDocs [] r1) r2) i =
      ((((r1 ++ r2).find? (fun d => d.id = i)).map
        (fun d => d.payload)).getD defaultPayload) := by
  rw [payloadOf, ← addDocs_append, alookup_addDocs]
  have : alookup ([] : List (ι × RetrievedDocument ι α)) i = none := rfl
  rw [this]
  rcases h : (r1 ++ r2).find? (fun d => decide (d.id = i)) with _ | d <;>
    simp [h, Option.orElse]

theorem dbsfPass_eq_accumAll [DecidableEq ι] (st : List (ι × ℝ))
    (results : List (RetrievedDocument ι ℝ)) (hlen : results.length ≠ 1) :
    dbsfPass st results = some (accumAll st (dbsfContribs results)) := by
  by_cases h0 : results.length = 0
  · have hnil : results = [] := List.length_eq_zero.1 h0
    subst hnil
    rw [dbsfPass, dbsfContribs]
    simp [accumAll]
  · rw [dbsfPass, if_neg h0, if_neg hlen, dbsfContribs]
    by_cases hstd : sampleStd (results.map (fun d => d.score)) = 0
    · rw [if_pos hstd, if_pos hstd]
      rw [accumAll, List.foldl_map]
    · rw [if_neg hstd, if_neg hstd]
      rw [accumAll, List.foldl_map]

theorem keysOf_dbsfContribs [DecidableEq ι]
    (results : List (RetrievedDocument ι ℝ)) :
    keysOf (dbsfContribs results) = results.map RetrievedDocument.id := by
  rw [dbsfContribs]
  by_cases hstd : sampleStd (results.map (fun d => d.score)) = 0
  · rw [if_pos hstd, keysOf, List.map_map]
    rfl
  · rw [if_neg hstd, keysOf, List.map_map]
    rfl

theorem find_id_of_mem_nodup [DecidableEq ι] {l : List (RetrievedDocument ι α)}
    {d : RetrievedDocument ι α} (hn : (l.map RetrievedDocument.id).Nodup)
    (hd : d ∈ l) : l.find? (fun x => x.id = d.id) = some d := by
  induction l with
  | nil => simp at hd
  | cons a l ih =>
    rw [List.map_cons, List.nodup_cons] at hn
    rcases List.mem_cons.1 hd with rfl | hd'
    · rw [List.find?_cons_of_pos _ (by simp)]
    · have hne : ¬ a.id = d.id := by
        intro hh
        exact hn.1 (hh ▸ List.mem_map_of_mem RetrievedDocument.id hd')
      rw [List.find?_cons_of_neg _ (by simpa using hne)]
      exact ih hn.2 hd'

theorem sumFor_dbsfContribs [DecidableEq ι]
    (l : List (RetrievedDocument ι ℝ)) (i : ι)
    (hn : (l.map RetrievedDocument.id).Nodup) :
    sumFor (dbsfContribs l) i = dbsf_contrib l i := by
  by_cases hi : i ∈ l.map RetrievedDocument.id
  · rcases List.mem_map.1 hi with ⟨d, hd, hdi⟩
    subst hdi
    have hfind := find_id_of_mem_nodup hn hd
    have hkeys : (keysOf (dbsfContribs l)).Nodup := by
      rw [keysOf_dbsfContribs]; exact hn
    rw [dbsf_contrib, if_pos hi]
    by_cases hstd : sampleStd (l.map (fun d => d.score)) = 0
    · rw [if_pos hstd]
      have hmem : (d.id, (1 : ℝ) / 2) ∈ dbsfContribs l := by
        rw [dbsfContribs]
        simp only [if_pos hstd]
        exact List.mem_map_of_mem _ hd
      exact sumFor_eq_of_mem_nodup _ _ _ hkeys hmem
    · rw [if_neg hstd]
      have hmem : (d.id, (d.score - (listMean (l.map (fun d => d.score)) -
          3 * sampleStd (l.map (fun d => d.score)))) /
          ((listMean (l.map (fun d => d.score)) +
            3 * sampleStd (l.map (fun d => d.score))) -
           (listMean (l.map (fun d => d.score)) -
            3 * sampleStd (l.map (fun d => d.score))))) ∈ dbsfContribs l := by
        rw [dbsfContribs]
        simp only [if_neg hstd]
        exact List.mem_map_of_mem _ hd
      rw [sumFor_eq_of_mem_nodup _ _ _ hkeys hmem]
      have hsc : scoreOfId l d.id = d.score := by
        rw [scoreOfId, hfind]
        rfl
      rw [hsc]
      ring_nf
  · rw [dbsf_contrib, if_neg hi]
    refine sumFor_eq_zero_of_not_mem _ _ ?_
    rw [keysOf_dbsfContribs]
    exact hi

/-- C2 (amended): for input lists that are not single-element (the
single-element case makes `np.std(·, ddof=1)` NaN, so those runs compute no
real scores) and carry no duplicate ids, DBSF fusion succeeds; each output
document's fused score is the sum over the two lists of its per-list
normalized contribution — `1/2` for every document of a list whose sample
standard deviation is `0`, and otherwise `(score - (mean - 3σ)) / (6σ)`
with `σ` the sample standard deviation (`ddof = 1`), without clipping, so a
contribution can fall outside `[0, 1]`; exactly the input ids appear; and
the output is sorted by fused score descending. -/
theorem dbsf_fusion_amended {ι : Type} [DecidableEq ι]
    (r1 r2 : List (RetrievedDocument ι ℝ))
    (hl1 : r1.length ≠ 1) (hl2 : r2.length ≠ 1)
    (h1 : (r1.map RetrievedDocument.id).Nodup)
    (h2 : (r2.map RetrievedDocument.id).Nodup) :
    ∃ out, fuse_dbsf r1 r2 = some out ∧
      (∀ d ∈ out, d.score = dbsf_contrib r1 d.id + dbsf_contrib r2 d.id) ∧
      (∀ i : ι, (∃ d ∈ out, d.id = i) ↔
        i ∈ r1.map RetrievedDocument.id ∨ i ∈ r2.map RetrievedDocument.id) ∧
      out.Pairwise (fun x y => y.score ≤ x.score) := by
  have hp1 := dbsfPass_eq_accumAll [] r1 hl1
  have hp2 := dbsfPass_eq_accumAll (accumAll [] (dbsfContribs r1)) r2 hl2
  have hfused : accumAll (accumAll [] (dbsfContribs r1)) (dbsfContribs r2) =
      accumAll [] (dbsfContribs r1 ++ dbsfContribs r2) :=
    (accumAll_append _ _ _).symm
  have hnodup : (keysOf (accumAll []
      (dbsfContribs r1 ++ dbsfContribs r2))).Nodup :=
    keysOf_nodup_accumAll _ [] List.nodup_nil
  have hscoreval : ∀ i, scoreVal (accumAll []
      (dbsfContribs r1 ++ dbsfContribs r2)) i =
      dbsf_contrib r1 i + dbsf_contrib r2 i := by
    intro i
    rw [scoreVal_accumAll, scoreVal_nil, zero_add, sumFor_append,
      sumFor_dbsfContribs r1 i h1, sumFor_dbsfContribs r2 i h2]
  have hmemkeys : ∀ i, i ∈ keysOf (accumAll []
      (dbsfContribs r1 ++ dbsfContribs r2)) ↔
      i ∈ r1.map RetrievedDocument.id ∨ i ∈ r2.map RetrievedDocument.id := by
    intro i
    rw [mem_keys_accumAll, keysOf_append, keysOf_dbsfContribs,
      keysOf_dbsfContribs, List.mem_append]
    simp [keysOf]
  have hout : fuse_dbsf r1 r2 = some
      (if accumAll [] (dbsfContribs r1 ++ dbsfContribs r2) = [] then []
       else sortByScoreDesc
        ((accumAll [] (dbsfContribs r1 ++ dbsfContribs r2)).map
          (fun p => ⟨p.1, p.2, payloadOf (addDocs (addDocs [] r1) r2) p.1⟩))) := by
    rw [fuse_dbsf, hp1]
    dsimp only
    rw [hp2]
    dsimp only
    rw [hfused]
  by_cases hempty : accumAll [] (dbsfContribs r1 ++ dbsfContribs r2) = []
  · refine ⟨[], by rw [hout, if_pos hempty], ?_, ?_, List.Pairwise.nil⟩
    · intro d hd; simp at hd
    · intro i
      constructor
      · rintro ⟨d, hd, rfl⟩; simp at hd
      · intro hmem
        have := (hmemkeys i).2 hmem
        rw [hempty] at this
        simp [keysOf] at this
  · refine ⟨sortByScoreDesc
      ((accumAll [] (dbsfContribs r1 ++ dbsfContribs r2)).map
        (fun p => ⟨p.1, p.2, payloadOf (addDocs (addDocs [] r1) r2) p.1⟩)),
      by rw [hout, if_neg hempty], ?_, ?_, ?_⟩
    · intro d hd
      rw [sortByScoreDesc, List.mem_insertionSort] at hd
      rcases List.mem_map.1 hd with ⟨p, hp, hpd⟩
      have hval : scoreVal (accumAll []
          (dbsfContribs r1 ++ dbsfContribs r2)) p.1 = p.2 := by
        rw [scoreVal, alookup_eq_of_mem_nodup _ p.1 p.2 hnodup
          (by simpa using hp), Option.getD_some]
      have hid : d.id = p.1 := by rw [← hpd]
      have hsc : d.score = p.2 := by rw [← hpd]
      rw [hsc, hid, ← hval, hscoreval]
    · intro i
      constructor
      · rintro ⟨d, hd, rfl⟩
        rw [sortByScoreDesc, List.mem_insertionSort] at hd
        rcases List.mem_map.1 hd with ⟨p, hp, hpd⟩
        have hid : d.id = p.1 := by rw [← hpd]
        rw [hid, ← hmemkeys]
        simpa [keysOf] using List.mem_map_of_mem Prod.fst hp
      · intro hmem
        have hkey := (hmemkeys i).2 hmem
        have hkey2 : ∃ v, (i, v) ∈ accumAll []
            (dbsfContribs r1 ++ dbsfContribs r2) := by
          simpa [keysOf] using hkey
        rcases hkey2 with ⟨v, hv⟩
        refine ⟨⟨i, v, payloadOf (addDocs (addDocs [] r1) r2) i⟩, ?_, rfl⟩
        rw [sortByScoreDesc, List.mem_insertionSort]
        exact List.mem_map_of_mem _ hv
    · rw [sortByScoreDesc]
      exact (insertionSort_desc_stable RetrievedDocument.score
        (fun _ _ => True) _ (pairwise_true _)).imp (fun h => h.1)

/-- Witness for C2's amended theorem: the hypotheses hold at the concrete
input `results1 = [doc 0 score 3, doc 1 score 1]`, `results2 = []` (lengths
2 and 0, no duplicate ids), and the theorem applies there. -/
theorem dbsf_fusion_amended_witness :
    (([⟨0, (3 : ℝ), defaultPayload⟩, ⟨1, (1 : ℝ), defaultPayload⟩] :
        List (RetrievedDocument ℕ ℝ)).length ≠ 1) ∧
    (([] : List (RetrievedDocument ℕ ℝ)).length ≠ 1) ∧
    (∃ out, fuse_dbsf
        [⟨0, (3 : ℝ), defaultPayload⟩, ⟨1, (1 : ℝ), defaultPayload⟩]
        ([] : List (RetrievedDocument ℕ ℝ)) = some out ∧
      (∀ d ∈ out, d.score =
        dbsf_contrib [⟨0, (3 : ℝ), defaultPayload⟩,
          ⟨1, (1 : ℝ), defaultPayload⟩] d.id +
        dbsf_contrib ([] : List (RetrievedDocument ℕ ℝ)) d.id) ∧
      (∀ i : ℕ, (∃ d ∈ out, d.id = i) ↔
        i ∈ ([⟨0, (3 : ℝ), defaultPayload⟩, ⟨1, (1 : ℝ), defaultPayload⟩] :
          List (RetrievedDocument ℕ ℝ)).map RetrievedDocument.id ∨
        i ∈ ([] : List (RetrievedDocument ℕ ℝ)).map RetrievedDocument.id) ∧
      out.Pairwise (fun x y => y.score ≤ x.score)) :=
  ⟨by simp, by simp,
    dbsf_fusion_amended [⟨0, (3 : ℝ), defaultPayload⟩,
      ⟨1, (1 : ℝ), defaultPayload⟩] [] (by simp) (by simp)
      (by simp) (by simp)⟩

theorem sampleStd_sixteenDocs :
    sampleStd (sixteenDocs.map (fun d => d.score)) = 1 / 4 := by
  have hscores : sixteenDocs.map (fun d => d.score) =
      [(1 : ℝ), 0, 0, 0, 0, 0, 0, 0, 0, 0, 0, 0, 0, 0, 0, 0] := rfl
  rw [hscores, sampleStd]
  have hmean : listMean [(1 : ℝ), 0, 0, 0, 0, 0, 0, 0, 0, 0, 0, 0, 0, 0, 0, 0] =
      1 / 16 := by
    rw [listMean]
    norm_num
  rw [hmean]
  have hsum : (([(1 : ℝ), 0, 0, 0, 0, 0, 0, 0, 0, 0, 0, 0, 0, 0, 0, 0]).map
      (fun x => (x - 1 / 16) ^ 2)).sum /
      ((([(1 : ℝ), 0, 0, 0, 0, 0, 0, 0, 0, 0, 0, 0, 0, 0, 0, 0]).length : ℝ) - 1) =
      (1 / 4) ^ 2 := by
    norm_num
  rw [hsum]
  exact Real.sqrt_sq (by norm_num)

/-- C2 counterexample: the per-list DBSF contribution is not clipped to
`[0, 1]` — on `sixteenDocs` (fused alone, so fused score = the single
per-list contribution), document `0` receives `9/8 > 1`. -/
theorem dbsf_claim_counterexample :
    dbsfPass [] sixteenDocs = some (accumAll [] (dbsfContribs sixteenDocs)) ∧
    scoreVal (accumAll [] (dbsfContribs sixteenDocs)) 0 = 9 / 8 ∧
    ¬ ((9 : ℝ) / 8 ≤ 1) := by
  have hnodup : (sixteenDocs.map RetrievedDocument.id).Nodup := by decide
  refine ⟨dbsfPass_eq_accumAll [] sixteenDocs (by decide), ?_, by norm_num⟩
  rw [scoreVal_accumAll, scoreVal_nil, zero_add,
    sumFor_dbsfContribs sixteenDocs 0 hnodup, dbsf_contrib,
    if_pos (by decide : (0 : ℕ) ∈ sixteenDocs.map RetrievedDocument.id),
    if_neg (by rw [sampleStd_sixteenDocs]; norm_num), sampleStd_sixteenDocs]
  have hmean : listMean (sixteenDocs.map (fun d => d.score)) = 1 / 16 := by
    have hscores : sixteenDocs.map (fun d => d.score) =
        [(1 : ℝ), 0, 0, 0, 0, 0, 0, 0, 0, 0, 0, 0, 0, 0, 0, 0] := rfl
    rw [hscores, listMean]
    norm_num
  have hsc : scoreOfId sixteenDocs 0 = 1 := by
    rw [scoreOfId]
    rfl
  rw [hmean, hsc]
  norm_num

theorem find_of_mem_ids [DecidableEq ι] {l : List (RetrievedDocument ι α)} {i : ι}
    (hi : i ∈ l.map RetrievedDocument.id) :
    ∃ x ∈ l, l.find? (fun d => d.id = i) = some x ∧ x.id = i := by
  induction l with
  | nil => simp at hi
  | cons a l ih =>
    by_cases h : a.id = i
    · exact ⟨a, List.mem_cons_self _ _,
        by rw [List.find?_cons_of_pos _ (by simpa using h)], h⟩
    · have hi' : i ∈ l.map RetrievedDocument.id := by
        rw [List.map_cons, List.mem_cons] at hi
        rcases hi with hh | hh
        · exact absurd hh.symm h
        · exact hh
      rcases ih hi' with ⟨x, hx, hfind, hxi⟩
      exact ⟨x, List.mem_cons_of_mem _ hx,
        by rw [List.find?_cons_of_neg _ (by simpa using h)]; exact hfind, hxi⟩

theorem dbsfPass_length_ne_one [DecidableEq ι] {st : List (ι × ℝ)}
    {l : List (RetrievedDocument ι ℝ)} {x : List (ι × ℝ)}
    (h : dbsfPass st l = some x) : l.length ≠ 1 := by
  intro hlen
  rw [dbsfPass, if_neg (by omega), if_pos hlen] at h
  exact Option.noConfusion h

/-- C8: for both fusion methods, output ids are free of duplicates (each
document appears at most once); each output document's payload is the
payload of the first document with that id scanning `results1` before
`results2`; and each output document's fused score is the sum of the score
it would accumulate from `results1` alone and from `results2` alone (so a
document present in both lists contributes from both). -/
theorem fusion_dedup_payload_additivity {ι α : Type} [DecidableEq ι]
    [LinearOrderedField α] (k : ℕ) (r1 r2 : List (RetrievedDocument ι α))
    (s1 s2 : List (RetrievedDocument ι ℝ)) :
    (((fuse_rrf k r1 r2).map RetrievedDocument.id).Nodup ∧
     (∀ d ∈ fuse_rrf k r1 r2,
       ((r1 ++ r2).find? (fun x => x.id = d.id)).map (fun x => x.payload) =
         some d.payload) ∧
     (∀ d ∈ fuse_rrf k r1 r2,
       d.score = scoreVal (rrfPass k [] r1) d.id +
         scoreVal (rrfPass k [] r2) d.id)) ∧
    (∀ out, fuse_dbsf s1 s2 = some out →
      ((out.map RetrievedDocument.id).Nodup ∧
       (∀ d ∈ out,
         ((s1 ++ s2).find? (fun x => x.id = d.id)).map (fun x => x.payload) =
           some d.payload) ∧
       (∀ d ∈ out, ∃ st1 st2, dbsfPass [] s1 = some st1 ∧
         dbsfPass [] s2 = some st2 ∧
         d.score = scoreVal st1 d.id + scoreVal st2 d.id))) := by
  constructor
  · -- RRF part
    have hfused := fuse_rrf_scores k r1 r2
    have hnodup : (keysOf (rrfPass k (rrfPass k [] r1) r2)).Nodup := by
      rw [hfused]
      exact keysOf_nodup_accumAll _ [] List.nodup_nil
    by_cases hempty : rrfPass k (rrfPass k [] r1) r2 = []
    · have hout : fuse_rrf k r1 r2 = [] := by
        rw [fuse_rrf]
        simp [hempty]
      rw [hout]
      exact ⟨List.nodup_nil, by intro d hd; simp at hd, by intro d hd; simp at hd⟩
    · have hout : fuse_rrf k r1 r2 = sortByScoreDesc
          ((rrfPass k (rrfPass k [] r1) r2).map
            (fun p => ⟨p.1, p.2, payloadOf (addDocs (addDocs [] r1) r2) p.1⟩)) := by
        rw [fuse_rrf]
        simp only [hempty, if_neg hempty, if_false]
      refine ⟨?_, ?_, ?_⟩
      · have hperm : List.Perm (fuse_rrf k r1 r2) ((rrfPass k (rrfPass k [] r1) r2).map
            (fun p => (⟨p.1, p.2, payloadOf (addDocs (addDocs [] r1) r2) p.1⟩ :
              RetrievedDocument ι α))) := by
          rw [hout, sortByScoreDesc]
          exact List.perm_insertionSort _ _
        have hmapped : ((rrfPass k (rrfPass k [] r1) r2).map
            (fun p => (⟨p.1, p.2, payloadOf (addDocs (addDocs [] r1) r2) p.1⟩ :
              RetrievedDocument ι α))).map RetrievedDocument.id =
            keysOf (rrfPass k (rrfPass k [] r1) r2) := by
          rw [List.map_map, keysOf]
          rfl
        rw [(hperm.map RetrievedDocument.id).nodup_iff, hmapped]
        exact hnodup
      · intro d hd
        rw [hout, sortByScoreDesc, List.mem_insertionSort] at hd
        rcases List.mem_map.1 hd with ⟨p, hp, hpd⟩
        have hid : d.id = p.1 := by rw [← hpd]
        have hpay : d.payload = payloadOf (addDocs (addDocs [] r1) r2) p.1 := by
          rw [← hpd]
        have hkey : p.1 ∈ keysOf (rrfPass k (rrfPass k [] r1) r2) := by
          simpa [keysOf] using List.mem_map_of_mem Prod.fst hp
        have hids : p.1 ∈ (r1 ++ r2).map RetrievedDocument.id := by
          rw [List.map_append, List.mem_append]
          exact (mem_keys_fuse_rrf k r1 r2 p.1).1 hkey
        rcases find_of_mem_ids hids with ⟨x, _, hfind, _⟩
        rw [hid, hfind, hpay, payloadOf_addDocs, hfind]
        rfl
      · intro d hd
        rw [hout, sortByScoreDesc, List.mem_insertionSort] at hd
        rcases List.mem_map.1 hd with ⟨p, hp, hpd⟩
        have hid : d.id = p.1 := by rw [← hpd]
        have hsc : d.score = p.2 := by rw [← hpd]
        have hval : scoreVal (rrfPass k (rrfPass k [] r1) r2) p.1 = p.2 := by
          rw [scoreVal, alookup_eq_of_mem_nodup _ p.1 p.2 hnodup
            (by simpa using hp), Option.getD_some]
        have hsum : scoreVal (rrfPass k (rrfPass k [] r1) r2) p.1 =
            scoreVal (rrfPass k [] r1) p.1 + scoreVal (rrfPass k [] r2) p.1 := by
          rw [hfused, scoreVal_accumAll, scoreVal_nil, zero_add, sumFor_append,
            rrfPass_eq_accumAll, rrfPass_eq_accumAll,
            scoreVal_accumAll, scoreVal_nil, zero_add,
            scoreVal_accumAll, scoreVal_nil, zero_add]
        rw [hsc, hid, ← hval, hsum]
  · -- DBSF part
    intro out hsome
    rcases hpass1 : dbsfPass ([] : List (ι × ℝ)) s1 with _ | st1
    · rw [fuse_dbsf, hpass1] at hsome
      exact Option.noConfusion hsome
    rcases hpass2 : dbsfPass st1 s2 with _ | fused
    · rw [fuse_dbsf, hpass1] at hsome
      dsimp only at hsome
      rw [hpass2] at hsome
      exact Option.noConfusion hsome
    have hlen1 := dbsfPass_length_ne_one hpass1
    have hlen2 := dbsfPass_length_ne_one hpass2
    have hst1 : st1 = accumAll [] (dbsfContribs s1) := by
      have := dbsfPass_eq_accumAll ([] : List (ι × ℝ)) s1 hlen1
      rw [hpass1] at this
      exact Option.some.inj this
    have hfusedeq : fused = accumAll [] (dbsfContribs s1 ++ dbsfContribs s2) := by
      have := dbsfPass_eq_accumAll st1 s2 hlen2
      rw [hpass2] at this
      rw [Option.some.inj this, hst1, accumAll_append]
    have houteq : out = (if fused = [] then []
        else sortByScoreDesc (fused.map
          (fun p => ⟨p.1, p.2, payloadOf (addDocs (addDocs [] s1) s2) p.1⟩))) := by
      rw [fuse_dbsf, hpass1] at hsome
      dsimp only at hsome
      rw [hpass2] at hsome
      dsimp only at hsome
      exact (Option.some.inj hsome).symm
    have hnodup : (keysOf fused).Nodup := by
      rw [hfusedeq]
      exact keysOf_nodup_accumAll _ [] List.nodup_nil
    have hsumsplit : ∀ i, scoreVal fused i =
        scoreVal (accumAll [] (dbsfContribs s1)) i +
        scoreVal (accumAll [] (dbsfContribs s2)) i := by
      intro i
      rw [hfusedeq, scoreVal_accumAll, scoreVal_nil, zero_add, sumFor_append,
        scoreVal_accumAll, scoreVal_nil, zero_add,
        scoreVal_accumAll, scoreVal_nil, zero_add]
    by_cases hempty : fused = []
    · have hout2 : out = [] := by rw [houteq, if_pos hempty]
      rw [hout2]
      exact ⟨List.nodup_nil, by intro d hd; simp at hd, by intro d hd; simp at hd⟩
    · have hout2 : out = sortByScoreDesc (fused.map
          (fun p => ⟨p.1, p.2, payloadOf (addDocs (addDocs [] s1) s2) p.1⟩)) := by
        rw [houteq, if_neg hempty]
      refine ⟨?_, ?_, ?_⟩
      · have hperm : List.Perm out (fused.map
            (fun p => (⟨p.1, p.2, payloadOf (addDocs (addDocs [] s1) s2) p.1⟩ :
              RetrievedDocument ι ℝ))) := by
          rw [hout2, sortByScoreDesc]
          exact List.perm_insertionSort _ _
        have hmapped : (fused.map
            (fun p => (⟨p.1, p.2, payloadOf (addDocs (addDocs [] s1) s2) p.1⟩ :
              RetrievedDocument ι ℝ))).map RetrievedDocument.id = keysOf fused := by
          rw [List.map_map, keysOf]
          rfl
        rw [(hperm.map RetrievedDocument.id).nodup_iff, hmapped]
        exact hnodup
      · intro d hd
        rw [hout2, sortByScoreDesc, List.mem_insertionSort] at hd
        rcases List.mem_map.1 hd with ⟨p, hp, hpd⟩
        have hid : d.id = p.1 := by rw [← hpd]
        have hpay : d.payload = payloadOf (addDocs (addDocs [] s1) s2) p.1 := by
          rw [← hpd]
        have hkey : p.1 ∈ keysOf fused := by
          simpa [keysOf] using List.mem_map_of_mem Prod.fst hp
        have hids : p.1 ∈ (s1 ++ s2).map RetrievedDocument.id := by
          rw [List.map_append, List.mem_append]
          have := hkey
          rw [hfusedeq, mem_keys_accumAll, keysOf_append, keysOf_dbsfContribs,
            keysOf_dbsfContribs, List.mem_append] at this
          rcases this with h | h
          · simp [keysOf] at h
          · exact h
        rcases find_of_mem_ids hids with ⟨x, _, hfind, _⟩
        rw [hid, hfind, hpay, payloadOf_addDocs, hfind]
        rfl
      · intro d hd
        rw [hout2, sortByScoreDesc, List.mem_insertionSort] at hd
        rcases List.mem_map.1 hd with ⟨p, hp, hpd⟩
        have hid : d.id = p.1 := by rw [← hpd]
        have hsc : d.score = p.2 := by rw [← hpd]
        have hval : scoreVal fused p.1 = p.2 := by
          rw [scoreVal, alookup_eq_of_mem_nodup _ p.1 p.2 hnodup
            (by simpa using hp), Option.getD_some]
        refine ⟨accumAll [] (dbsfContribs s1), accumAll [] (dbsfContribs s2),
          by rw [hst1], dbsfPass_eq_accumAll _ _ hlen2, ?_⟩
        rw [hsc, hid, ← hval, hsumsplit]

/-- Witness for C8: the theorem's quantified parts apply at the concrete
inputs `r1 = [doc 7]`, `r2 = [doc 7 duplicate id]` for RRF (over `ℚ`) and
the two-and-zero document pair used for C2's witness for DBSF. -/
theorem fusion_dedup_payload_additivity_witness :
    (((fuse_rrf 2 [⟨7, (1 : ℚ), ⟨"a", "m"⟩⟩]
        [⟨7, (2 : ℚ), ⟨"b", "m"⟩⟩]).map RetrievedDocument.id).Nodup) :=
  (fusion_dedup_payload_additivity 2 [⟨7, (1 : ℚ), ⟨"a", "m"⟩⟩]
    [⟨7, (2 : ℚ), ⟨"b", "m"⟩⟩] ([] : List (RetrievedDocument ℕ ℝ)) []).1.1

theorem mapM_ok_forall {σ ε β : Type} (f : σ → Except ε β) :
    ∀ (l : List σ) (res : List β), l.mapM f = .ok res →
      ∀ b ∈ res, ∃ a ∈ l, f a = .ok b := by
  intro l
  induction l with
  | nil =>
    intro res h b hb
    rw [List.mapM_nil] at h
    have : ([] : List β) = res := Except.ok.inj h
    rw [← this] at hb
    simp at hb
  | cons a l ih =>
    intro res h b hb
    rw [List.mapM_cons] at h
    cases hfa : f a with
    | error e =>
      rw [hfa] at h
      simp only [bind, Except.bind] at h
      exact Except.noConfusion h
    | ok v =>
      rw [hfa] at h
      cases hrest : l.mapM f with
      | error e =>
        rw [hrest] at h
        simp only [bind, Except.bind] at h
        exact Except.noConfusion h
      | ok vs =>
        rw [hrest] at h
        simp only [bind, Except.bind, pure, Except.pure] at h
        have hres : v :: vs = res := Except.ok.inj h
        rw [← hres] at hb
        rcases List.mem_cons.1 hb with rfl | hb'
        · exact ⟨a, List.mem_cons_self _ _, hfa⟩
        · rcases ih vs hrest b hb' with ⟨x, hx, hfx⟩
          exact ⟨x, List.mem_cons_of_mem _ hx, hfx⟩

/-- C3 counterexample: with `top_k = 3` and `overfetch_multiplier = 1.9`
the claimed overfetch `max(top_k, round(top_k * mul)) = round(5.7) = 6`,
but the code truncates: `max(3, int(5.7)) = 5`, and `hybrid_search` indeed
requests `5` candidates from both backends, not `6`. -/
theorem hybrid_overfetch_counterexample :
    overfetch_amount 3 (19 / 10) = 5 ∧
    spec_overfetch 3 (19 / 10) = 6 ∧
    (hybrid_search observeBackend observeBackend 3 (19 / 10) "rrf").map
      (List.map (Option.map (List.map RetrievedDocument.id))) =
      .ok [some [5]] ∧
    (5 : ℕ) ≠ 6 := by
  have h5 : overfetch_amount 3 (19 / 10) = 5 := by
    rw [overfetch_amount, pythonInt, if_neg (by norm_num)]
    rw [show ((3 : ℕ) : ℚ) * (19 / 10) = 57 / 10 by norm_num]
    rw [show ⌊(57 : ℚ) / 10⌋ = 5 by norm_num]
    rfl
  refine ⟨h5, ?_, ?_, by decide⟩
  · rw [spec_overfetch]
    rw [show ((3 : ℕ) : ℚ) * (19 / 10) = 57 / 10 by norm_num]
    rw [show round ((57 : ℚ) / 10) = 6 by norm_num [round_eq]]
    rfl
  · have hunfold : hybrid_search observeBackend observeBackend 3 (19 / 10) "rrf" =
        ((observeBackend (overfetch_amount 3 (19 / 10))).zip
          (observeBackend (overfetch_amount 3 (19 / 10)))).mapM
          (fun p => (fuse_results "rrf" p.1 p.2).map
            (fun o => o.map (fun fused => fused.take 3))) := rfl
    rw [hunfold, h5]
    rfl

/-- C3 (amended): for `overfetch_multiplier ≥ 1`, `hybrid_search`'s
overfetch amount is `⌊top_k * overfetch_mul⌋` — truncation toward zero,
not rounding (the enclosing `max(top_k, ·)` is then redundant) — and is at
least `top_k` (`= 10 ≥ 10` in the `top_k = 5`, multiplier `2.0` scenario);
the search queries both injected backends at exactly that amount, fuses
the per-query list pairs, and truncates every fused list to at most
`top_k` results. -/
theorem hybrid_search_overfetch_amended {ι : Type} [DecidableEq ι]
    (ds ss : ℕ → List (List (RetrievedDocument ι ℝ)))
    (top_k : ℕ) (mul : ℚ) (m : String) (hmul : 1 ≤ mul) :
    overfetch_amount top_k mul = (⌊(top_k : ℚ) * mul⌋).toNat ∧
    top_k ≤ overfetch_amount top_k mul ∧
    overfetch_amount 5 2 = 10 ∧
    hybrid_search ds ss top_k mul m =
      ((ds (overfetch_amount top_k mul)).zip
        (ss (overfetch_amount top_k mul))).mapM
        (fun p => (fuse_results m p.1 p.2).map
          (fun o => o.map (fun fused => fused.take top_k))) ∧
    (∀ res, hybrid_search ds ss top_k mul m = .ok res →
      ∀ o ∈ res, ∀ l, o = some l → l.length ≤ top_k) := by
  have hq0 : (0 : ℚ) ≤ (top_k : ℚ) * mul := by positivity
  have hfl : (top_k : ℤ) ≤ ⌊(top_k : ℚ) * mul⌋ := by
    rw [Int.le_floor]
    push_cast
    exact le_mul_of_one_le_right (by positivity) hmul
  have htrunc : overfetch_amount top_k mul = (⌊(top_k : ℚ) * mul⌋).toNat := by
    rw [overfetch_amount, pythonInt, if_neg (not_lt.2 hq0)]
    omega
  have hge : top_k ≤ overfetch_amount top_k mul := by
    rw [htrunc]
    omega
  have hscenario : overfetch_amount 5 2 = 10 := by
    rw [overfetch_amount, pythonInt, if_neg (by norm_num)]
    rw [show ((5 : ℕ) : ℚ) * 2 = 10 by norm_num]
    rw [show ⌊(10 : ℚ)⌋ = 10 by norm_num]
    rfl
  refine ⟨htrunc, hge, hscenario, rfl, ?_⟩
  intro res hres o ho l hl
  rcases mapM_ok_forall _ _ res hres o ho with ⟨p, _, hfp⟩
  cases hfr : fuse_results m p.1 p.2 with
  | error e =>
    rw [hfr] at hfp
    exact Except.noConfusion hfp
  | ok o' =>
    rw [hfr] at hfp
    have ho' : o'.map (fun fused => fused.take top_k) = o := by
      have : Except.ok (ε := FusionError) (o'.map (fun fused => fused.take top_k)) =
          Except.ok o := hfp
      exact Except.ok.inj this
    rw [← ho'] at hl
    cases o' with
    | none => exact Option.noConfusion hl
    | some l' =>
      have : l'.take top_k = l := Option.some.inj hl
      rw [← this]
      exact List.length_take_le _ _

/-- Witness for C3's amended theorem: the hypothesis `1 ≤ overfetch_mul`
holds at the concrete scenario `top_k = 5`, multiplier `2`, and the theorem
applies there, giving the spec's `≥ 10 from each backend` scenario. -/
theorem hybrid_search_overfetch_amended_witness :
    (1 : ℚ) ≤ 2 ∧ overfetch_amount 5 2 = 10 :=
  ⟨by norm_num,
    (hybrid_search_overfetch_amended (ι := ℕ) observeBackend observeBackend
      5 2 "rrf" (by norm_num)).2.2.1⟩

theorem batch_search_error_of_mem {σ ε β : Type} (search : σ → Except ε β) :
    ∀ (queries : List σ), (∃ q ∈ queries, ∃ e, search q = .error e) →
      ∃ e', batch_search search queries = .error e' ∧
        ∃ q' ∈ queries, search q' = .error e' := by
  intro queries
  induction queries with
  | nil =>
    rintro ⟨q, hq, _⟩
    simp at hq
  | cons a l ih =>
    rintro ⟨q, hq, e, he⟩
    cases hfa : search a with
    | error e' =>
      exact ⟨e', by rw [batch_search, hfa], a, List.mem_cons_self _ _, hfa⟩
    | ok r =>
      have hql : q ∈ l := by
        rcases List.mem_cons.1 hq with rfl | h
        · rw [hfa] at he
          exact Except.noConfusion he
        · exact h
      rcases ih ⟨q, hql, e, he⟩ with ⟨e', hbatch, q', hq', he'⟩
      refine ⟨e', ?_, q', List.mem_cons_of_mem _ hq', he'⟩
      rw [batch_search, hfa, hbatch]

theorem batch_search_ok_correspondence {σ ε β : Type} (search : σ → Except ε β) :
    ∀ (queries : List σ) (results : List β),
      batch_search search queries = .ok results →
      List.Forall₂ (fun q b => search q = .ok b) queries results := by
  intro queries
  induction queries with
  | nil =>
    intro results h
    have : ([] : List β) = results := Except.ok.inj h
    rw [← this]
    exact List.Forall₂.nil
  | cons a l ih =>
    intro results h
    cases hfa : search a with
    | error e =>
      rw [batch_search, hfa] at h
      exact Except.noConfusion h
    | ok r =>
      rw [batch_search, hfa] at h
      cases hrest : batch_search search l with
      | error e =>
        rw [hrest] at h
        exact Except.noConfusion h
      | ok rs =>
        rw [hrest] at h
        have : r :: rs = results := Except.ok.inj h
        rw [← this]
        exact List.Forall₂.cons hfa (ih rs hrest)

/-- C9: a typed backend error for any query in the batch aborts the whole
retrieval: the orchestrator body surfaces exactly the originating error of
some failing query (wrapped as a typed backend failure), its `except`
boundary then answers HTTP 500 with an empty result list — never partial
results; and a successful call returns HTTP 200 with one result list per
query, in input order, each produced by that query's backend call (so no
error is swallowed inside the per-query scoring/fusion computations). -/
theorem retrieval_error_propagation {σ ε β : Type}
    (search : σ → Except ε β) (queries : List σ) :
    ((∃ q ∈ queries, ∃ e, search q = .error e) →
      ∃ e', retrieve_documents_core search queries =
          .error (.backend e') ∧
        (∃ q' ∈ queries, search q' = .error e') ∧
        retrieve_documents search queries = (500, [])) ∧
    (∀ results, retrieve_documents_core search queries = .ok results →
      results.length = queries.length ∧
      List.Forall₂ (fun q b => search q = .ok b) queries results ∧
      retrieve_documents search queries = (200, results)) ∧
    ((∃ results, retrieve_documents_core search queries = .ok results ∧
        retrieve_documents search queries = (200, results)) ∨
      retrieve_documents search queries = (500, [])) := by
  refine ⟨?_, ?_, ?_⟩
  · rintro hfail
    have hne : ¬ queries.isEmpty := by
      rcases hfail with ⟨q, hq, _⟩
      cases queries with
      | nil => simp at hq
      | cons a l => simp [List.isEmpty]
    rcases batch_search_error_of_mem search queries hfail with ⟨e', hbatch, hq'⟩
    refine ⟨e', ?_, hq', ?_⟩
    · rw [retrieve_documents_core, if_neg hne, hbatch]
    · rw [retrieve_documents, retrieve_documents_core, if_neg hne, hbatch]
  · intro results h
    have hcorr : List.Forall₂ (fun q b => search q = .ok b) queries results := by
      rw [retrieve_documents_core] at h
      by_cases hne : queries.isEmpty
      · rw [if_pos hne] at h
        exact Except.noConfusion h
      · rw [if_neg hne] at h
        cases hbatch : batch_search search queries with
        | error e =>
          rw [hbatch] at h
          exact Except.noConfusion h
        | ok rs =>
          rw [hbatch] at h
          dsimp only at h
          by_cases hlen : rs.length ≠ queries.length
          · rw [if_pos hlen] at h
            exact Except.noConfusion h
          · rw [if_neg hlen] at h
            have : rs = results := Except.ok.inj h
            rw [← this]
            exact batch_search_ok_correspondence search queries rs hbatch
    exact ⟨hcorr.length_eq.symm, hcorr,
      by rw [retrieve_documents, h]⟩
  · cases hcore : retrieve_documents_core search queries with
    | error e =>
      right
      rw [retrieve_documents, hcore]
    | ok results =>
      left
      exact ⟨results, rfl, by rw [retrieve_documents, hcore]⟩

/-- Witness for C9: the theorem applies at a concrete batch in which the
second query's backend call fails, and the whole call answers 500 with no
partial results. -/
theorem retrieval_error_propagation_witness :
    retrieve_documents
      (fun q : ℕ => if q = 2 then Except.error "backend down" else Except.ok q)
      [1, 2, 3] = (500, []) := by
  rcases (retrieval_error_propagation
      (fun q : ℕ => if q = 2 then Except.error "backend down" else Except.ok q)
      [1, 2, 3]).1 ⟨2, by decide, "backend down", by rfl⟩ with
    ⟨e', _, _, h500⟩
  exact h500

theorem sortPairsDesc_pair_tie {ι α : Type} [LinearOrder α] (i j : ι) (s : α) :
    sortPairsDesc [(i, s), (j, s)] = [(i, s), (j, s)] := by
  rw [sortPairsDesc]
  show List.orderedInsert _ (i, s) (List.orderedInsert _ (j, s) []) =
    [(i, s), (j, s)]
  rw [List.orderedInsert, List.orderedInsert, if_pos (le_refl s)]

/-- C4 counterexample: on the query `y x` against `twoDocIndex`, both
documents score identically, yet `index_retrieve` returns `u1` (DocId 1)
before `u0` (DocId 0): equal scores are ordered by score-dict insertion
order (the postings order of the first matching query term), not by DocId
ascending. -/
theorem lexical_tiebreak_counterexample :
    index_retrieve calc_idf calc_tfidf calc_okapi_bm25 twoDocIndex
      [["y", "x"]] 5 "okapi-bm25" =
      .ok [[⟨"u1", twoDocScore, payY⟩, ⟨"u0", twoDocScore, payX⟩]] ∧
    sortPairsDesc [((1 : ℕ), twoDocScore), (0, twoDocScore)] =
      [(1, twoDocScore), (0, twoDocScore)] ∧
    (0 : ℕ) < 1 := by
  refine ⟨?_, sortPairsDesc_pair_tie 1 0 _, by decide⟩
  · have hscores : scoreTokens calc_idf calc_tfidf calc_okapi_bm25 twoDocIndex
        "okapi-bm25" (counter ["y", "x"]) [] =
        .ok [(1, twoDocScore), (0, twoDocScore)] := rfl
    have hsort : sortPairsDesc [((1 : ℕ), twoDocScore), (0, twoDocScore)] =
        [(1, twoDocScore), (0, twoDocScore)] := sortPairsDesc_pair_tie 1 0 _
    rw [index_retrieve, List.mapM_cons, List.mapM_nil, hscores]
    simp only [bind, Except.bind, pure, Except.pure, hsort]
    rfl

/-- C4 (amended): every per-query result list of `index_retrieve` is sorted
by score descending — ties are resolved by the deterministic insertion
order of the score accumulator, not by DocId ascending. -/
theorem index_retrieve_sorted {α : Type} [LinearOrderedField α]
    (calcIdf : ℕ → ℕ → α) (calcTfidf : ℕ → α → α) (calcBM25 : ℕ → α → ℕ → α → α)
    (index : InvertedIndex) (queries : List (List String)) (top_k : ℕ)
    (method : String) (res : List (List (RetrievedDocument String α)))
    (h : index_retrieve calcIdf calcTfidf calcBM25 index queries top_k method =
      .ok res) :
    ∀ l ∈ res, l.Pairwise (fun x y => y.score ≤ x.score) := by
  intro l hl
  rcases mapM_ok_forall _ queries res h l hl with ⟨tokens, _, hf⟩
  cases hsc : scoreTokens calcIdf calcTfidf calcBM25 index method
      (counter tokens) [] with
  | error e =>
    rw [hsc] at hf
    exact Except.noConfusion hf
  | ok scores =>
    rw [hsc] at hf
    have hl2 : ((sortPairsDesc scores).take top_k).map
        (fun p => (⟨index.uuids.getD p.1 "", p.2,
          index.docs.getD p.1 defaultPayload⟩ : RetrievedDocument String α)) =
        l := Except.ok.inj hf
    rw [← hl2]
    rw [List.pairwise_map]
    have hsorted : (sortPairsDesc scores).Pairwise
        (fun x y : ℕ × α => y.2 ≤ x.2) := by
      rw [sortPairsDesc]
      exact (insertionSort_desc_stable Prod.snd (fun _ _ => True) scores
        (pairwise_true scores)).imp (fun h => h.1)
    exact hsorted.sublist (List.take_sublist top_k _)

/-- Witness for C4's amended theorem: the success hypothesis holds at the
concrete input of the counterexample (query `y x` against `twoDocIndex`),
and the theorem applies there: the returned list is sorted descending. -/
theorem index_retrieve_sorted_witness :
    ([(⟨"u1", twoDocScore, payY⟩ : RetrievedDocument String ℝ),
      ⟨"u0", twoDocScore, payX⟩]).Pairwise (fun x y => y.score ≤ x.score) :=
  index_retrieve_sorted calc_idf calc_tfidf calc_okapi_bm25 twoDocIndex
    [["y", "x"]] 5 "okapi-bm25"
    [[⟨"u1", twoDocScore, payY⟩, ⟨"u0", twoDocScore, payX⟩]]
    (by
      have hscores : scoreTokens calc_idf calc_tfidf calc_okapi_bm25 twoDocIndex
          "okapi-bm25" (counter ["y", "x"]) [] =
          .ok [(1, twoDocScore), (0, twoDocScore)] := rfl
      have hsort : sortPairsDesc [((1 : ℕ), twoDocScore), (0, twoDocScore)] =
          [(1, twoDocScore), (0, twoDocScore)] := sortPairsDesc_pair_tie 1 0 _
      rw [index_retrieve, List.mapM_cons, List.mapM_nil, hscores]
      simp only [bind, Except.bind, pure, Except.pure, hsort]
      rfl)
    [⟨"u1", twoDocScore, payY⟩, ⟨"u0", twoDocScore, payX⟩]
    (List.mem_singleton.2 rfl)

/-- C6 counterexample: an unknown scoring method does not fail when no
query term matches the index — the method check sits inside the postings
loop, so the query `zzz` (absent from the vocabulary) returns an empty
result list instead of the claimed unsupported-scoring-method error. -/
theorem scoring_method_check_counterexample :
    index_retrieve calc_idf calc_tfidf calc_okapi_bm25 twoDocIndex
      [["zzz"]] 5 "bogus" = .ok [[]] := rfl

theorem counter_eq_accumAll (tokens : List String) :
    counter tokens = accumAll [] (tokens.map (fun t => (t, 1))) := by
  rw [counter, accumAll, List.foldl_map]

theorem mem_keys_counter {tokens : List String} {t : String}
    (h : t ∈ keysOf (counter tokens)) : t ∈ tokens := by
  rw [counter_eq_accumAll] at h
  rcases (mem_keys_accumAll _ _ _).1 h with h' | h'
  · simp [keysOf] at h'
  · rw [keysOf, List.map_map] at h'
    simpa using h'

theorem scorePostings_error {α : Type} [LinearOrderedField α]
    (calcTfidf : ℕ → α → α) (calcBM25 : ℕ → α → ℕ → α → α)
    (method : String) (qtf : ℕ) (idf : α) (doc_lens : List ℕ) (avg : α)
    (hm1 : method ≠ "tfidf") (hm2 : method ≠ "okapi-bm25")
    (q : ℕ × ℕ) (rest : List (ℕ × ℕ)) (scores : List (ℕ × α)) :
    scorePostings calcTfidf calcBM25 method qtf idf doc_lens avg
      (q :: rest) scores = .error (.unsupportedScoringMethod method) := by
  obtain ⟨doc_id, tf⟩ := q
  rw [scorePostings]
  simp only [if_neg hm1, if_neg hm2]

theorem scoreTokens_error_of_match {α : Type} [LinearOrderedField α]
    (calcIdf : ℕ → ℕ → α) (calcTfidf : ℕ → α → α) (calcBM25 : ℕ → α → ℕ → α → α)
    (index : InvertedIndex) (method : String)
    (hm1 : method ≠ "tfidf") (hm2 : method ≠ "okapi-bm25") :
    ∀ (cs : List (String × ℕ)) (scores : List (ℕ × α)),
    (∃ p ∈ cs, ∃ idx, alookup index.vocab p.1 = some idx ∧
      (alookup index.postings idx).getD [] ≠ []) →
    scoreTokens calcIdf calcTfidf calcBM25 index method cs scores =
      .error (.unsupportedScoringMethod method) := by
  intro cs
  induction cs with
  | nil =>
    rintro scores ⟨p, hp, _⟩
    simp at hp
  | cons c cs ih =>
    rintro scores ⟨p, hp, idx, hidx, hpost⟩
    obtain ⟨t, qtf⟩ := c
    rw [scoreTokens]
    cases hvoc : alookup index.vocab t with
    | none =>
      have hptail : p ∈ cs := by
        rcases List.mem_cons.1 hp with rfl | h
        · rw [hvoc] at hidx
          exact Option.noConfusion hidx
        · exact h
      exact ih scores ⟨p, hptail, idx, hidx, hpost⟩
    | some tidx =>
      dsimp only
      cases hpl : (alookup index.postings tidx).getD [] with
      | nil =>
        have hsp : scorePostings calcTfidf calcBM25 method qtf
            (calcIdf ((alookup index.doc_freqs tidx).getD 0) index.doc_count)
            index.doc_lens (((index.avg_doc_len.getD 0 : ℚ) : α)) []
            scores = .ok scores := rfl
        rw [hsp]
        have hptail : p ∈ cs := by
          rcases List.mem_cons.1 hp with rfl | h
          · rw [hvoc] at hidx
            have heq : tidx = idx := Option.some.inj hidx
            rw [heq] at hpl
            exact absurd hpl hpost
          · exact h
        exact ih scores ⟨p, hptail, idx, hidx, hpost⟩
      | cons q rest =>
        rw [scorePostings_error calcTfidf calcBM25 method qtf _ _ _
          hm1 hm2 q rest scores]

theorem scoreTokens_skip_all {α : Type} [LinearOrderedField α]
    (calcIdf : ℕ → ℕ → α) (calcTfidf : ℕ → α → α) (calcBM25 : ℕ → α → ℕ → α → α)
    (index : InvertedIndex) (method : String) :
    ∀ (cs : List (String × ℕ)) (scores : List (ℕ × α)),
    (∀ p ∈ cs, alookup index.vocab p.1 = none) →
    scoreTokens calcIdf calcTfidf calcBM25 index method cs scores =
      .ok scores := by
  intro cs
  induction cs with
  | nil => intro scores _; rfl
  | cons c cs ih =>
    intro scores hnone
    obtain ⟨t, qtf⟩ := c
    rw [scoreTokens]
    have hvoc : alookup index.vocab t = none :=
      hnone (t, qtf) (List.mem_cons_self _ _)
    rw [hvoc]
    exact ih scores (fun p hp => hnone p (List.mem_cons_of_mem _ hp))

theorem mapM_const_ok {σ ε β : Type} (f : σ → Except ε β) (g : σ → β) :
    ∀ (l : List σ), (∀ a ∈ l, f a = .ok (g a)) → l.mapM f = .ok (l.map g) := by
  intro l
  induction l with
  | nil => intro _; rfl
  | cons a l ih =>
    intro h
    rw [List.mapM_cons, h a (List.mem_cons_self _ _),
      ih (fun x hx => h x (List.mem_cons_of_mem _ hx))]
    rfl

/-- C6 (amended): the lexical scorer's unknown-method check sits inside the
postings loop, so it fires exactly when some query term matches the index:
an unknown method fails with the unsupported-scoring-method error whenever
some query term is in the vocabulary with a nonempty postings list; a query
none of whose terms is in the vocabulary returns an empty result without
validating the method; and over an index built from zero documents every
query of every batch returns the empty result list — never an error. -/
theorem scoring_method_check_amended {α : Type} [LinearOrderedField α]
    (calcIdf : ℕ → ℕ → α) (calcTfidf : ℕ → α → α)
    (calcBM25 : ℕ → α → ℕ → α → α) :
    (∀ (index : InvertedIndex) (method : String) (tokens : List String)
      (top_k : ℕ), method ≠ "tfidf" → method ≠ "okapi-bm25" →
      (∃ p ∈ counter tokens, ∃ idx, alookup index.vocab p.1 = some idx ∧
        (alookup index.postings idx).getD [] ≠ []) →
      index_retrieve calcIdf calcTfidf calcBM25 index [tokens] top_k method =
        .error (.unsupportedScoringMethod method)) ∧
    (∀ (index : InvertedIndex) (method : String) (tokens : List String)
      (top_k : ℕ), (∀ t ∈ tokens, alookup index.vocab t = none) →
      index_retrieve calcIdf calcTfidf calcBM25 index [tokens] top_k method =
        .ok [[]]) ∧
    (∀ (uuids : List String) (docs : List DocumentPayload)
      (queries : List (List String)) (method : String) (top_k : ℕ),
      index_retrieve calcIdf calcTfidf calcBM25
        (build_inverted_index [] uuids docs) queries top_k method =
        .ok (queries.map (fun _ => []))) := by
  refine ⟨?_, ?_, ?_⟩
  · intro index method tokens top_k hm1 hm2 hmatch
    rw [index_retrieve, List.mapM_cons,
      scoreTokens_error_of_match calcIdf calcTfidf calcBM25 index method
        hm1 hm2 (counter tokens) [] hmatch]
    rfl
  · intro index method tokens top_k hnone
    have hskip := scoreTokens_skip_all calcIdf calcTfidf calcBM25 index method
      (counter tokens) []
      (fun p hp => hnone p.1 (mem_keys_counter
        (by simpa [keysOf] using List.mem_map_of_mem Prod.fst hp)))
    rw [index_retrieve, List.mapM_cons, List.mapM_nil, hskip]
    simp only [bind, Except.bind, pure, Except.pure]
    rw [show sortPairsDesc ([] : List (ℕ × α)) = [] from rfl, List.take_nil,
      List.map_nil]
  · intro uuids docs queries method top_k
    rw [index_retrieve]
    refine mapM_const_ok _ _ queries ?_
    intro tokens _
    have hvocab : (build_inverted_index [] uuids docs).vocab = [] := rfl
    have hskip := scoreTokens_skip_all calcIdf calcTfidf calcBM25
      (build_inverted_index [] uuids docs) method (counter tokens) []
      (fun p _ => by rw [hvocab]; rfl)
    rw [hskip]
    dsimp only
    rw [show sortPairsDesc ([] : List (ℕ × α)) = [] from rfl, List.take_nil,
      List.map_nil]

/-- Witness for C6's amended theorem: its hypotheses hold concretely — the
method `bogus` with the matching query `x` against `twoDocIndex` errors,
while the same method with the non-matching query `zzz` succeeds. -/
theorem scoring_method_check_amended_witness :
    index_retrieve (fun _ _ => (0 : ℚ)) (fun _ _ => 0) (fun _ _ _ _ => 0)
      twoDocIndex [["x"]] 5 "bogus" =
      .error (.unsupportedScoringMethod "bogus") ∧
    index_retrieve (fun _ _ => (0 : ℚ)) (fun _ _ => 0) (fun _ _ _ _ => 0)
      twoDocIndex [["zzz"]] 5 "bogus" = .ok [[]] :=
  ⟨(scoring_method_check_amended (fun _ _ => (0 : ℚ)) (fun _ _ => 0)
      (fun _ _ _ _ => 0)).1 twoDocIndex "bogus" ["x"] 5 (by decide) (by decide)
      ⟨("x", 1), by decide, 0, by decide, by decide⟩,
    (scoring_method_check_amended (fun _ _ => (0 : ℚ)) (fun _ _ => 0)
      (fun _ _ _ _ => 0)).2.1 twoDocIndex "bogus" ["zzz"] 5
      (by intro t ht; fin_cases ht; decide)⟩

theorem alookup_mem [DecidableEq ι] :
    ∀ {m : List (ι × β)} {i : ι} {b : β}, alookup m i = some b → (i, b) ∈ m := by
  intro m
  induction m with
  | nil => intro i b h; exact Option.noConfusion h
  | cons p m ih =>
    intro i b h
    obtain ⟨j, w⟩ := p
    rw [alookup] at h
    by_cases hj : j = i
    · rw [if_pos hj] at h
      have : w = b := Option.some.inj h
      rw [← this, hj]
      exact List.mem_cons_self _ _
    · rw [if_neg hj] at h
      exact List.mem_cons_of_mem _ (ih h)

theorem keysOf_insertPosting (P : List (ℕ × List (ℕ × ℕ))) (idx : ℕ)
    (q : ℕ × ℕ) :
    keysOf (insertPosting P idx q) =
      if idx ∈ keysOf P then keysOf P else keysOf P ++ [idx] := by
  induction P with
  | nil => simp [insertPosting, keysOf]
  | cons p P ih =>
    obtain ⟨j, pl⟩ := p
    by_cases h : j = idx
    · subst h
      simp [insertPosting, keysOf_cons]
    · have h' : ¬ idx = j := fun hh => h hh.symm
      have hb : insertPosting ((j, pl) :: P) idx q =
          (j, pl) :: insertPosting P idx q := by
        simp [insertPosting, h]
      rw [hb, keysOf_cons, keysOf_cons, ih]
      by_cases hm : idx ∈ keysOf P
      · simp [hm, h']
      · simp [hm, h']

theorem alookup_insertPosting (P : List (ℕ × List (ℕ × ℕ))) (idx j : ℕ)
    (q : ℕ × ℕ) :
    alookup (insertPosting P idx q) j =
      if j = idx then some ((alookup P idx).getD [] ++ [q])
      else alookup P j := by
  induction P with
  | nil =>
    by_cases h : j = idx
    · subst h
      simp [insertPosting, alookup]
    · have h' : ¬ idx = j := fun hh => h hh.symm
      simp [insertPosting, alookup, h, h']
  | cons p P ih =>
    obtain ⟨l, pl⟩ := p
    by_cases hl : l = idx
    · subst hl
      by_cases h : j = l
      · subst h
        simp [insertPosting, alookup]
      · have h' : ¬ l = j := fun hh => h hh.symm
        simp [insertPosting, alookup, h, h']
    · have hb : insertPosting ((l, pl) :: P) idx q =
          (l, pl) :: insertPosting P idx q := by
        simp [insertPosting, hl]
      rw [hb]
      by_cases h2 : l = j
      · subst h2
        rw [if_neg (fun hh : l = idx => hl hh)]
        simp [alookup]
      · rw [alookup, if_neg h2]
        by_cases h : j = idx
        · rw [if_pos h, ih, if_pos h, alookup, if_neg hl]
        · rw [if_neg h, ih, if_neg h, alookup, if_neg h2]

theorem snd_nodup_inj {v : List (String × ℕ)} (hn : (v.map Prod.snd).Nodup)
    {t1 t2 : String} {i : ℕ} (h1 : (t1, i) ∈ v) (h2 : (t2, i) ∈ v) :
    t1 = t2 := by
  induction v with
  | nil => simp at h1
  | cons p v ih =>
    obtain ⟨t, j⟩ := p
    rw [List.map_cons, List.nodup_cons] at hn
    rcases List.mem_cons.1 h1 with hh1 | hh1 <;>
      rcases List.mem_cons.1 h2 with hh2 | hh2
    · injection hh1 with a1 _
      injection hh2 with a2 _
      rw [a1, a2]
    · injection hh1 with a1 b1
      exfalso
      apply hn.1
      show j ∈ List.map Prod.snd v
      rw [← b1]
      exact List.mem_map_of_mem Prod.snd hh2
    · injection hh2 with a2 b2
      exfalso
      apply hn.1
      show j ∈ List.map Prod.snd v
      rw [← b2]
      exact List.mem_map_of_mem Prod.snd hh1
    · exact ih hn.2 hh1 hh2

theorem counter_values_pos :
    ∀ (tokens : List String) (m : List (String × ℕ)),
    (∀ p ∈ m, 1 ≤ p.2) → ∀ p ∈ tokens.foldl (fun acc t => bump acc t 1) m,
      1 ≤ p.2 := by
  have hbump : ∀ (m : List (String × ℕ)) (i : String),
      (∀ p ∈ m, 1 ≤ p.2) → ∀ p ∈ bump m i 1, 1 ≤ p.2 := by
    intro m
    induction m with
    | nil =>
      intro i _ p hp
      rcases List.mem_singleton.1 hp with rfl
      exact le_refl 1
    | cons c m ih =>
      intro i hm p hp
      obtain ⟨j, w⟩ := c
      rw [bump] at hp
      by_cases h : j = i
      · rw [if_pos h] at hp
        rcases List.mem_cons.1 hp with rfl | hp'
        · exact Nat.le_add_left 1 w
        · exact hm p (List.mem_cons_of_mem _ hp')
      · rw [if_neg h] at hp
        rcases List.mem_cons.1 hp with rfl | hp'
        · exact hm (j, w) (List.mem_cons_self _ _)
        · exact ih i (fun x hx => hm x (List.mem_cons_of_mem _ hx)) p hp'
  intro tokens
  induction tokens with
  | nil => intro m hm p hp; exact hm p hp
  | cons t tokens ih =>
    intro m hm p hp
    exact ih (bump m t 1) (hbump m t hm) p hp

theorem keysOf_counter_nodup (tokens : List String) :
    (keysOf (counter tokens)).Nodup := by
  rw [counter_eq_accumAll]
  exact keysOf_nodup_accumAll _ [] List.nodup_nil

theorem buildStep_eq (st : List (String × ℕ) × List (ℕ × List (ℕ × ℕ)))
    (n : ℕ) (tokens : List String) :
    buildStep st (n, tokens) = (counter tokens).foldl (buildTok n) st := rfl

theorem buildTok_fold_inv (n : ℕ) :
    ∀ (cs : List (String × ℕ)) (v : List (String × ℕ))
      (P : List (ℕ × List (ℕ × ℕ))),
    VocabOK v →
    P.map Prod.fst = v.map Prod.snd →
    (∀ idx pl, alookup P idx = some pl →
      (pl.map Prod.fst).Pairwise (· < ·) ∧ ∀ q ∈ pl, q.1 ≤ n ∧ 1 ≤ q.2) →
    (keysOf cs).Nodup →
    (∀ p ∈ cs, 1 ≤ p.2) →
    (∀ p ∈ cs, ∀ i, alookup v p.1 = some i → ∀ pl, alookup P i = some pl →
      ∀ q ∈ pl, q.1 < n) →
    VocabOK (cs.foldl (buildTok n) (v, P)).1 ∧
    (cs.foldl (buildTok n) (v, P)).2.map Prod.fst =
      (cs.foldl (buildTok n) (v, P)).1.map Prod.snd ∧
    (∀ idx pl, alookup (cs.foldl (buildTok n) (v, P)).2 idx = some pl →
      (pl.map Prod.fst).Pairwise (· < ·) ∧ ∀ q ∈ pl, q.1 ≤ n ∧ 1 ≤ q.2) := by
  intro cs
  induction cs with
  | nil =>
    intro v P hvoc hkeys hpost _ _ _
    exact ⟨hvoc, hkeys, hpost⟩
  | cons c cs ih =>
    intro v P hvoc hkeys hpost hcsnodup hcspos hfresh
    obtain ⟨t, qtf⟩ := c
    have hqtf : 1 ≤ qtf := hcspos (t, qtf) (List.mem_cons_self _ _)
    have hstep : ((t, qtf) :: cs).foldl (buildTok n) (v, P) =
        cs.foldl (buildTok n) (buildTok n (v, P) (t, qtf)) := rfl
    rw [hstep]
    have hsndnodup : (v.map Prod.snd).Nodup := by
      rw [hvoc.2]
      exact List.nodup_range _
    have htailnodup : (keysOf cs).Nodup := by
      rw [keysOf_cons] at hcsnodup
      exact (List.nodup_cons.1 hcsnodup).2
    have htnotin : t ∉ keysOf cs := by
      rw [keysOf_cons] at hcsnodup
      exact (List.nodup_cons.1 hcsnodup).1
    cases hvt : alookup v t with
    | some idx =>
      have hbt : buildTok n (v, P) (t, qtf) =
          (v, insertPosting P idx (n, qtf)) := by
        rw [buildTok, hvt]
      rw [hbt]
      have hidxmem : idx ∈ v.map Prod.snd :=
        List.mem_map_of_mem Prod.snd (alookup_mem hvt)
      have hpost' : ∀ j pl, alookup (insertPosting P idx (n, qtf)) j = some pl →
          (pl.map Prod.fst).Pairwise (· < ·) ∧ ∀ q ∈ pl, q.1 ≤ n ∧ 1 ≤ q.2 := by
        intro j pl hj
        rw [alookup_insertPosting] at hj
        by_cases hji : j = idx
        · rw [if_pos hji] at hj
          have hpl : pl = (alookup P idx).getD [] ++ [(n, qtf)] :=
            (Option.some.inj hj).symm
          cases hPidx : alookup P idx with
          | none =>
            rw [hPidx] at hpl
            have hpl2 : pl = [(n, qtf)] := by rw [hpl]; rfl
            rw [hpl2]
            constructor
            · exact List.pairwise_singleton _ _
            · intro q hq
              rcases List.mem_singleton.1 hq with rfl
              exact ⟨le_refl n, hqtf⟩
          | some old =>
            rw [hPidx] at hpl
            have hold := hpost idx old hPidx
            have holdlt : ∀ q ∈ old, q.1 < n :=
              hfresh (t, qtf) (List.mem_cons_self _ _) idx hvt old hPidx
            rw [hpl]
            constructor
            · rw [List.map_append]
              rw [List.pairwise_append]
              refine ⟨hold.1, List.pairwise_singleton _ _, ?_⟩
              intro a ha b hb
              rcases List.mem_map.1 ha with ⟨q, hq, rfl⟩
              rcases List.mem_singleton.1 (by simpa using hb) with rfl
              exact holdlt q hq
            · intro q hq
              rcases List.mem_append.1 hq with hq' | hq'
              · exact ⟨le_of_lt (by
                  have := (hold.2 q hq').1
                  have := holdlt q hq'
                  omega), (hold.2 q hq').2⟩
              · rcases List.mem_singleton.1 hq' with rfl
                exact ⟨le_refl n, hqtf⟩
        · rw [if_neg hji] at hj
          exact hpost j pl hj
      refine ih v (insertPosting P idx (n, qtf)) hvoc ?_ hpost' htailnodup
        (fun p hp => hcspos p (List.mem_cons_of_mem _ hp)) ?_
      · show keysOf (insertPosting P idx (n, qtf)) = v.map Prod.snd
        rw [keysOf_insertPosting]
        have : idx ∈ keysOf P := by
          show idx ∈ P.map Prod.fst
          rw [hkeys]
          exact hidxmem
        rw [if_pos this]
        exact hkeys
      · intro p hp i hvi pl hpli
        have hne : p.1 ≠ t := by
          intro hh
          exact htnotin (hh ▸ (by
            simpa [keysOf] using List.mem_map_of_mem Prod.fst hp))
        have hine : i ≠ idx := by
          intro hh
          subst hh
          exact hne (snd_nodup_inj hsndnodup (alookup_mem hvi) (alookup_mem hvt))
        rw [alookup_insertPosting, if_neg hine] at hpli
        exact hfresh p (List.mem_cons_of_mem _ hp) i hvi pl hpli
    | none =>
      have hbt : buildTok n (v, P) (t, qtf) =
          (v ++ [(t, v.length)], insertPosting P v.length (n, qtf)) := by
        rw [buildTok, hvt]
      rw [hbt]
      have hlennotin : v.length ∉ keysOf P := by
        show v.length ∉ P.map Prod.fst
        rw [hkeys, hvoc.2]
        simp
      have hPlen : alookup P v.length = none :=
        (alookup_eq_none_iff_not_mem _ _).2 hlennotin
      have hvoc' : VocabOK (v ++ [(t, v.length)]) := by
        constructor
        · rw [keysOf, List.map_append]
          refine List.Nodup.append ?_ (List.nodup_singleton _) ?_
          · exact hvoc.1
          · intro a ha hb
            have hat : a = t := by simpa using hb
            rw [hat] at ha
            exact (alookup_eq_none_iff_not_mem v t).1 hvt ha
        · rw [List.map_append, hvoc.2, List.length_append]
          simp [List.range_succ]
      have hkeys' : (insertPosting P v.length (n, qtf)).map Prod.fst =
          (v ++ [(t, v.length)]).map Prod.snd := by
        have : keysOf (insertPosting P v.length (n, qtf)) =
            keysOf P ++ [v.length] := by
          rw [keysOf_insertPosting, if_neg hlennotin]
        show keysOf (insertPosting P v.length (n, qtf)) = _
        rw [this, List.map_append]
        show keysOf P ++ [v.length] = v.map Prod.snd ++ _
        rw [← hkeys]
        rfl
      have hpost' : ∀ j pl,
          alookup (insertPosting P v.length (n, qtf)) j = some pl →
          (pl.map Prod.fst).Pairwise (· < ·) ∧ ∀ q ∈ pl, q.1 ≤ n ∧ 1 ≤ q.2 := by
        intro j pl hj
        rw [alookup_insertPosting] at hj
        by_cases hji : j = v.length
        · rw [if_pos hji, hPlen] at hj
          have hpl : pl = none.getD [] ++ [(n, qtf)] := (Option.some.inj hj).symm
          have hpl2 : pl = [(n, qtf)] := by rw [hpl]; rfl
          rw [hpl2]
          constructor
          · exact List.pairwise_singleton _ _
          · intro q hq
            rcases List.mem_singleton.1 hq with rfl
            exact ⟨le_refl n, hqtf⟩
        · rw [if_neg hji] at hj
          exact hpost j pl hj
      refine ih (v ++ [(t, v.length)]) (insertPosting P v.length (n, qtf))
        hvoc' hkeys' hpost' htailnodup
        (fun p hp => hcspos p (List.mem_cons_of_mem _ hp)) ?_
      intro p hp i hvi pl hpli
      have hne : p.1 ≠ t := by
        intro hh
        exact htnotin (hh ▸ (by
          simpa [keysOf] using List.mem_map_of_mem Prod.fst hp))
      have hvi' : alookup v p.1 = some i := by
        rw [alookup_append] at hvi
        cases hv1 : alookup v p.1 with
        | none =>
          rw [hv1] at hvi
          simp only [Option.orElse] at hvi
          rw [alookup] at hvi
          rw [if_neg (fun hh : t = p.1 => hne hh.symm)] at hvi
          exact Option.noConfusion (show alookup [] p.1 = some i from hvi)
        | some i' =>
          rw [hv1] at hvi
          simp only [Option.orElse] at hvi
          exact hvi
      have hine : i ≠ v.length := by
        intro hh
        have : i ∈ v.map Prod.snd :=
          List.mem_map_of_mem Prod.snd (alookup_mem hvi')
        rw [hvoc.2, hh] at this
        simp at this
      rw [alookup_insertPosting, if_neg hine] at hpli
      exact hfresh p (List.mem_cons_of_mem _ hp) i hvi' pl hpli

theorem build_enum_inv :
    ∀ (docsTok : List (List String)) (n : ℕ) (v : List (String × ℕ))
      (P : List (ℕ × List (ℕ × ℕ))),
    VocabOK v → P.map Prod.fst = v.map Prod.snd → PostOK n P →
    VocabOK ((docsTok.enumFrom n).foldl buildStep (v, P)).1 ∧
    ((docsTok.enumFrom n).foldl buildStep (v, P)).2.map Prod.fst =
      ((docsTok.enumFrom n).foldl buildStep (v, P)).1.map Prod.snd ∧
    PostOK (n + docsTok.length) ((docsTok.enumFrom n).foldl buildStep (v, P)).2 := by
  intro docsTok
  induction docsTok with
  | nil =>
    intro n v P hvoc hkeys hpost
    rw [List.enumFrom_nil]
    exact ⟨hvoc, hkeys, by simpa using hpost⟩
  | cons d rest ih =>
    intro n v P hvoc hkeys hpost
    rw [List.enumFrom_cons]
    have hstep : ((n, d) :: rest.enumFrom (n + 1)).foldl buildStep (v, P) =
        (rest.enumFrom (n + 1)).foldl buildStep (buildStep (v, P) (n, d)) := rfl
    rw [hstep, buildStep_eq]
    have hinner := buildTok_fold_inv n (counter d) v P hvoc hkeys
      (fun idx pl hpl => ⟨(hpost idx pl hpl).1,
        fun q hq => ⟨le_of_lt ((hpost idx pl hpl).2 q hq).1,
          ((hpost idx pl hpl).2 q hq).2⟩⟩)
      (keysOf_counter_nodup d)
      (fun p hp => counter_values_pos d [] (by intro p hp; simp at hp) p hp)
      (fun p _ i _ pl hpl q hq => ((hpost i pl hpl).2 q hq).1)
    have hpost1 : PostOK (n + 1) ((counter d).foldl (buildTok n) (v, P)).2 := by
      intro idx pl hpl
      refine ⟨(hinner.2.2 idx pl hpl).1, ?_⟩
      intro q hq
      have := (hinner.2.2 idx pl hpl).2 q hq
      omega
    have := ih (n + 1) ((counter d).foldl (buildTok n) (v, P)).1
      ((counter d).foldl (buildTok n) (v, P)).2 hinner.1 hinner.2.1 hpost1
    have harith : (n + 1) + rest.length = n + (d :: rest).length := by
      rw [List.length_cons]
      omega
    rw [harith] at this
    exact this

theorem alookup_map_pair [DecidableEq ι] (f : β → γ) :
    ∀ (m : List (ι × β)) (j : ι),
    alookup (m.map (fun e => (e.1, f e.2))) j = (alookup m j).map f := by
  intro m
  induction m with
  | nil => intro j; rfl
  | cons p m ih =>
    intro j
    obtain ⟨i, b⟩ := p
    by_cases h : i = j
    · subst h
      simp [alookup]
    · simp only [List.map_cons, alookup, if_neg h]
      exact ih j

theorem build_inverted_index_inv (tokenized : List (List String))
    (uuids : List String) (docs : List DocumentPayload) :
    VocabOK (build_inverted_index tokenized uuids docs).vocab ∧
    (build_inverted_index tokenized uuids docs).postings.map Prod.fst =
      (build_inverted_index tokenized uuids docs).vocab.map Prod.snd ∧
    PostOK tokenized.length
      (build_inverted_index tokenized uuids docs).postings := by
  have hstart := build_enum_inv tokenized 0 [] []
    ⟨List.nodup_nil, rfl⟩ rfl
    (fun idx pl hpl => Option.noConfusion hpl)
  rw [Nat.zero_add] at hstart
  have henum : tokenized.enum = tokenized.enumFrom 0 := rfl
  have hvp : (build_inverted_index tokenized uuids docs).vocab =
      ((tokenized.enumFrom 0).foldl buildStep ([], [])).1 := by
    rw [build_inverted_index, ← henum]
  have hpp : (build_inverted_index tokenized uuids docs).postings =
      ((tokenized.enumFrom 0).foldl buildStep ([], [])).2 := by
    rw [build_inverted_index, ← henum]
  rw [hvp, hpp]
  exact hstart

/-- C7: in every index produced by `build_inverted_index`, every vocabulary
term's id has a postings list, and the stored document frequency for that
id is exactly the length of that postings list. -/
theorem doc_freq_invariant (tokenized : List (List String))
    (uuids : List String) (docs : List DocumentPayload) :
    ∀ p ∈ (build_inverted_index tokenized uuids docs).vocab,
      ∃ pl, alookup (build_inverted_index tokenized uuids docs).postings
          p.2 = some pl ∧
        alookup (build_inverted_index tokenized uuids docs).doc_freqs
          p.2 = some pl.length := by
  intro p hp
  obtain ⟨hvoc, hkeys, _⟩ := build_inverted_index_inv tokenized uuids docs
  have hmem : p.2 ∈ (build_inverted_index tokenized uuids docs).postings.map
      Prod.fst := by
    rw [hkeys]
    exact List.mem_map_of_mem Prod.snd hp
  have hsome : (alookup (build_inverted_index tokenized uuids docs).postings
      p.2).isSome := (alookup_isSome_iff_mem_keys _ _).2 hmem
  rcases Option.isSome_iff_exists.1 hsome with ⟨pl, hpl⟩
  refine ⟨pl, hpl, ?_⟩
  have hdf : (build_inverted_index tokenized uuids docs).doc_freqs =
      (build_inverted_index tokenized uuids docs).postings.map
        (fun e => (e.1, e.2.length)) := rfl
  rw [hdf, alookup_map_pair, hpl]
  rfl

/-- Witness for C7: the invariant applies to the index built from the
two-document corpus `[["x"], ["y"]]` at the vocabulary entry of term `x`. -/
theorem doc_freq_invariant_witness :
    ("x", 0) ∈ (build_inverted_index [["x"], ["y"]] ["u0", "u1"]
      [payX, payY]).vocab ∧
    ∃ pl, alookup (build_inverted_index [["x"], ["y"]] ["u0", "u1"]
        [payX, payY]).postings 0 = some pl ∧
      alookup (build_inverted_index [["x"], ["y"]] ["u0", "u1"]
        [payX, payY]).doc_freqs 0 = some pl.length :=
  ⟨by decide,
    doc_freq_invariant [["x"], ["y"]] ["u0", "u1"] [payX, payY]
      ("x", 0) (by decide)⟩

/-- C10: in every index produced by `build_inverted_index` from a batch of
`N` tokenized texts, every posting `(doc_id, tf)` satisfies
`doc_id < N = doc_count` and `tf ≥ 1`, each term's postings list has
strictly increasing doc ids (hence at most one posting per document), and
whenever the uuid and payload tables have one entry per batch document the
hydration lookups `uuids[doc_id]` and `docs[doc_id]` are in range. -/
theorem postings_wellformed (tokenized : List (List String))
    (uuids : List String) (docs : List DocumentPayload)
    (huuids : uuids.length = tokenized.length)
    (hdocs : docs.length = tokenized.length) :
    ∀ e ∈ (build_inverted_index tokenized uuids docs).postings,
      (e.2.map Prod.fst).Pairwise (· < ·) ∧
      ∀ q ∈ e.2,
        q.1 < (build_inverted_index tokenized uuids docs).doc_count ∧
        1 ≤ q.2 ∧
        q.1 < (build_inverted_index tokenized uuids docs).uuids.length ∧
        q.1 < (build_inverted_index tokenized uuids docs).docs.length := by
  intro e he
  obtain ⟨hvoc, hkeys, hpost⟩ := build_inverted_index_inv tokenized uuids docs
  have hkeysnodup :
      (keysOf (build_inverted_index tokenized uuids docs).postings).Nodup := by
    show ((build_inverted_index tokenized uuids docs).postings.map
      Prod.fst).Nodup
    rw [hkeys, hvoc.2]
    exact List.nodup_range _
  have halo : alookup (build_inverted_index tokenized uuids docs).postings
      e.1 = some e.2 :=
    alookup_eq_of_mem_nodup _ e.1 e.2 hkeysnodup (by
      rcases e with ⟨i, pl⟩
      exact he)
  have hres := hpost e.1 e.2 halo
  refine ⟨hres.1, ?_⟩
  intro q hq
  have hql := (hres.2 q hq).1
  have hcount : (build_inverted_index tokenized uuids docs).doc_count =
      tokenized.length := rfl
  have hul : (build_inverted_index tokenized uuids docs).uuids.length =
      uuids.length := rfl
  have hdl : (build_inverted_index tokenized uuids docs).docs.length =
      docs.length := rfl
  refine ⟨by rw [hcount]; exact hql, (hres.2 q hq).2, ?_, ?_⟩
  · rw [hul, huuids]
    exact hql
  · rw [hdl, hdocs]
    exact hql

/-- Witness for C10: the hypotheses (one uuid and one payload per batch
document) hold for the two-document corpus, and the theorem applies at the
postings entry of term id 0. -/
theorem postings_wellformed_witness :
    (["u0", "u1"] : List String).length = ([["x"], ["y"]] :
      List (List String)).length ∧
    ((0, [(0, 1)]) : ℕ × List (ℕ × ℕ)) ∈
      (build_inverted_index [["x"], ["y"]] ["u0", "u1"] [payX, payY]).postings ∧
    ((([(0, 1)] : List (ℕ × ℕ)).map Prod.fst).Pairwise (· < ·) ∧
      ∀ q ∈ ([(0, 1)] : List (ℕ × ℕ)),
        q.1 < (build_inverted_index [["x"], ["y"]] ["u0", "u1"]
          [payX, payY]).doc_count ∧
        1 ≤ q.2 ∧
        q.1 < (build_inverted_index [["x"], ["y"]] ["u0", "u1"]
          [payX, payY]).uuids.length ∧
        q.1 < (build_inverted_index [["x"], ["y"]] ["u0", "u1"]
          [payX, payY]).docs.length) :=
  ⟨by decide, by decide,
    postings_wellformed [["x"], ["y"]] ["u0", "u1"] [payX, payY]
      (by decide) (by decide) (0, [(0, 1)]) (by decide)⟩

end RAG

